import Mathlib

/-!
# Verification of the Schema-Builder normalizer, variant grouper and highlighter

This file is a shallow embedding, in Lean 4, of the client-side logic of the
Schema-Builder repository:

* `normalizeSchema` (src/App.tsx, lines 78-101): the structural digest of a
  generated NoSQL schema;
* the grouping, sorting and scoring core of `handleRobustnessTest`
  (src/App.tsx, lines 104-162);
* the serialization `JSON.stringify` of normalized schemas, used as the
  grouping key (src/App.tsx, line 124);
* the requirement highlighter (src/components/RequirementHighlighter.tsx);
* the settlement behaviour of the `Promise.all` join used by
  `runRobustnessTest` (src/services/geminiService.ts).

Modelling conventions, fixed once and used throughout:

* TypeScript values that may be `null`/`undefined`/non-string are embedded as
  `Option`-typed fields; `none` stands for an absent, null, or non-string
  value (the code's `safeString` collapses all of these to `''`).
* JavaScript's `String.prototype.trim` is embedded as `jsTrim`, dropping the
  exact ECMAScript WhiteSpace/LineTerminator set from both ends.
* `a.localeCompare(b)` is embedded as lexicographic code-point comparison of
  the character lists (`a.data ≤ b.data`): a deterministic total order that
  returns 0 exactly on equal strings.  Every counterexample below ties only
  on *equal* strings, where every locale's `localeCompare` returns 0 as well.
* `Array.prototype.sort` is stable (ES2019).  A stable sort with respect to a
  total preorder is a unique function of its input, so we embed it as
  `List.insertionSort`, which is stable, and prove the stability facts we use.
* `JSON.stringify` of the records built by `normalizeSchema` is embedded as
  `jstringify`: object keys are emitted in insertion order (`name`, `fields`,
  `type`, `collections` as constructed), without spaces, with the ECMAScript
  `QuoteJSONString` escaping.  We prove this serialization injective, so that
  byte-for-byte equality of the encodings coincides with structural equality
  of the normalized values.
* `String.prototype.toLowerCase` is embedded as the character-wise
  `Char.toLower` (exact on ASCII, which is the data the component handles).
-/

namespace SchemaBuilder

/-! ## JavaScript string primitives -/

/-- The ECMAScript WhiteSpace and LineTerminator code points removed by
`String.prototype.trim`: TAB, LF, VT, FF, CR, SP, NBSP, OGHAM SPACE MARK,
EN QUAD .. HAIR SPACE, LS, PS, NARROW NBSP, MMSP, IDEOGRAPHIC SPACE, ZWNBSP. -/
def isJsWhitespace (c : Char) : Bool :=
  let n := c.toNat
  n = 0x09 || n = 0x0A || n = 0x0B || n = 0x0C || n = 0x0D || n = 0x20 ||
  n = 0xA0 || n = 0x1680 || (0x2000 ≤ n && n ≤ 0x200A) || n = 0x2028 ||
  n = 0x2029 || n = 0x202F || n = 0x205F || n = 0x3000 || n = 0xFEFF

/-- Drop leading, then trailing, JS whitespace from a character list. -/
def trimChars (l : List Char) : List Char :=
  ((l.dropWhile isJsWhitespace).reverse.dropWhile isJsWhitespace).reverse

/-- Embedding of JavaScript `s.trim()`. -/
def jsTrim (s : String) : String :=
  ⟨trimChars s.data⟩

/-- Embedding of `safeString` (src/App.tsx line 79):
`(s && typeof s === 'string') ? s.trim() : ''`.  `none` stands for a missing,
null, or non-string value; the empty string is falsy in JS, but
`''.trim() = ''`, so collapsing that case into `jsTrim` is exact. -/
def safeString (o : Option String) : String :=
  match o with
  | some s => jsTrim s
  | none => ""

/-! ## The data model (src/types.ts)

`name`, `type` and `description` are `Option String` so that the degenerate
inputs handled defensively by `normalizeSchema` (missing / null / non-string
values, missing `fields` or `collections` arrays) are representable. -/

structure Field where
  name : Option String
  type : Option String
  description : Option String
  relevantRequirements : List String
deriving DecidableEq, Repr

structure Collection where
  name : Option String
  description : Option String
  fields : Option (List Field)
  relevantRequirements : List String
deriving DecidableEq, Repr

structure Schema where
  collections : Option (List Collection)
deriving DecidableEq, Repr

structure GeminiResponse where
  schema : Option Schema
  justification : String
deriving DecidableEq, Repr

/-! ## The normalized ("structural digest") model

`normalizeSchema` (src/App.tsx lines 78-101) returns fresh objects of the
following shapes: fields `{name, type}`, collections `{name, fields}`,
schema `{collections}`. -/

structure NormField where
  name : String
  type : String
deriving DecidableEq, Repr

structure NormCollection where
  name : String
  fields : List NormField
deriving DecidableEq, Repr

structure NormSchema where
  collections : List NormCollection
deriving DecidableEq, Repr

/-- The comparator `(a, b) => a.name.localeCompare(b.name)` on normalized
fields, embedded as code-point order on the names. -/
def fieldLE (a b : NormField) : Prop :=
  a.name.data ≤ b.name.data

instance : DecidableRel fieldLE :=
  fun a b => inferInstanceAs (Decidable (a.name.data ≤ b.name.data))

instance : IsTotal NormField fieldLE :=
  ⟨fun a b => le_total a.name.data b.name.data⟩

instance : IsTrans NormField fieldLE :=
  ⟨fun _ _ _ h1 h2 => le_trans h1 h2⟩

/-- The comparator `(a, b) => a.name.localeCompare(b.name)` on normalized
collections. -/
def collLE (a b : NormCollection) : Prop :=
  a.name.data ≤ b.name.data

instance : DecidableRel collLE :=
  fun a b => inferInstanceAs (Decidable (a.name.data ≤ b.name.data))

instance : IsTotal NormCollection collLE :=
  ⟨fun a b => le_total a.name.data b.name.data⟩

instance : IsTrans NormCollection collLE :=
  ⟨fun _ _ _ h1 h2 => le_trans h1 h2⟩

/-- One field of the structural digest:
`{ name: safeString(field.name), type: safeString(field.type) }`. -/
def normalizeField (f : Field) : NormField :=
  ⟨safeString f.name, safeString f.type⟩

/-- One collection of the structural digest (src/App.tsx lines 81-95):
normalize every field of `collection.fields || []`, sort the fields by name
with the stable `Array.prototype.sort`, and trim the collection name. -/
def normalizeCollection (c : Collection) : NormCollection :=
  ⟨safeString c.name,
   List.insertionSort fieldLE ((c.fields.getD []).map normalizeField)⟩

/-- Embedding of `normalizeSchema` (src/App.tsx lines 78-101): normalize the
collections of `schema.collections || []` and sort them by name. -/
def normalizeSchema (s : Schema) : NormSchema :=
  ⟨List.insertionSort collLE ((s.collections.getD []).map normalizeCollection)⟩

/-! ## `JSON.stringify` on normalized schemas (src/App.tsx line 124)

`JSON.stringify(normalizeSchema(response.schema))` serializes the digest with
object keys in insertion order and no whitespace.  `jstringify` below emits
exactly that encoding and is proved injective, so string equality of the keys
coincides with structural equality of the digests. -/

/-- Lowercase hexadecimal digit, as emitted by ECMAScript `QuoteJSONString`
for control characters. -/
def hexDigit (n : Nat) : Char :=
  (String.data "0123456789abcdef").getD n '0'

/-- Inverse of `hexDigit` on its image; used only to prove injectivity. -/
def hexVal (c : Char) : Nat :=
  if 97 ≤ c.toNat then c.toNat - 87 else c.toNat - 48

/-- The escape sequence `JSON.stringify` emits for one character: `\"`, `\\`,
the named control escapes, `\u00xx` for the remaining control characters, and
the character itself otherwise.  (Lean strings contain no lone surrogates, so
the `\udxxx` case of ECMAScript cannot arise.) -/
def escapeChar (c : Char) : List Char :=
  if c = '"' then ['\\', '"']
  else if c = '\\' then ['\\', '\\']
  else if c = '\x08' then ['\\', 'b']
  else if c = '\x0c' then ['\\', 'f']
  else if c = '\n' then ['\\', 'n']
  else if c = '\r' then ['\\', 'r']
  else if c = '\t' then ['\\', 't']
  else if c.toNat < 32 then
    ['\\', 'u', '0', '0', hexDigit (c.toNat / 16), hexDigit (c.toNat % 16)]
  else [c]

/-- Escape a whole character list. -/
def escChars : List Char → List Char
  | [] => []
  | c :: cs => escapeChar c ++ escChars cs

/-- Decoder for the code point opening an escaped stream; establishes that
`escapeChar` is a prefix code.  Used only in injectivity proofs. -/
def escHeadNat : List Char → Nat
  | [] => 0
  | [a] => a.toNat
  | a :: b :: rest =>
    if a = '\\' then
      if b = 'u' then
        match rest with
        | _ :: _ :: h1 :: h2 :: _ => 16 * hexVal h1 + hexVal h2
        | _ => 0
      else if b = 'b' then 8
      else if b = 'f' then 12
      else if b = 'n' then 10
      else if b = 'r' then 13
      else if b = 't' then 9
      else b.toNat
    else a.toNat

/-- A JSON string literal `"…"` followed by a continuation `r`. -/
def quoteOut (s : String) (r : List Char) : List Char :=
  '"' :: (escChars s.data ++ ('"' :: r))

/-- `{` -/
def lbrace : Char := '\x7b'

/-- `}` -/
def rbrace : Char := '\x7d'

/-- The characters of `{"name":`. -/
def litNameKey : List Char := [lbrace, '"', 'n', 'a', 'm', 'e', '"', ':']

/-- The characters of `,"type":`. -/
def litTypeKey : List Char := [',', '"', 't', 'y', 'p', 'e', '"', ':']

/-- The characters of `,"fields":[`. -/
def litFieldsKey : List Char :=
  [',', '"', 'f', 'i', 'e', 'l', 'd', 's', '"', ':', '[']

/-- The characters of `{"collections":[`. -/
def litCollsKey : List Char :=
  [lbrace, '"', 'c', 'o', 'l', 'l', 'e', 'c', 't', 'i', 'o', 'n', 's', '"',
   ':', '[']

/-- `{"name":"…","type":"…"}` followed by `r`. -/
def fieldOut (f : NormField) (r : List Char) : List Char :=
  litNameKey ++ quoteOut f.name (litTypeKey ++ quoteOut f.type (rbrace :: r))

/-- The fields after the first one: `,item,item…]` followed by `r`. -/
def fieldsTail : List NormField → List Char → List Char
  | [], r => ']' :: r
  | f :: fs, r => ',' :: fieldOut f (fieldsTail fs r)

/-- The body of a JSON field array, after its `[`. -/
def fieldsOut : List NormField → List Char → List Char
  | [], r => ']' :: r
  | f :: fs, r => fieldOut f (fieldsTail fs r)

/-- `{"name":"…","fields":[…]}` followed by `r`. -/
def collOut (c : NormCollection) (r : List Char) : List Char :=
  litNameKey ++ quoteOut c.name (litFieldsKey ++ fieldsOut c.fields (rbrace :: r))

/-- The collections after the first one. -/
def collsTail : List NormCollection → List Char → List Char
  | [], r => ']' :: r
  | c :: cs, r => ',' :: collOut c (collsTail cs r)

/-- The body of the collection array, after its `[`. -/
def collsOut : List NormCollection → List Char → List Char
  | [], r => ']' :: r
  | c :: cs, r => collOut c (collsTail cs r)

/-- Embedding of `JSON.stringify` on the records produced by
`normalizeSchema`: `{"collections":[…]}`. -/
def jstringify (n : NormSchema) : String :=
  ⟨litCollsKey ++ collsOut n.collections [rbrace]⟩

/-- The grouping key of a schema:
`JSON.stringify(normalizeSchema(schema))` (src/App.tsx line 124). -/
def schemaKey (s : Schema) : String :=
  jstringify (normalizeSchema s)

/-! ### Injectivity of the serialization -/

theorem hexVal_hexDigit : ∀ n, n < 16 → hexVal (hexDigit n) = n := by decide

theorem char_toNat_inj {c c' : Char} (h : c.toNat = c'.toNat) : c = c' := by
  apply Char.ext
  apply UInt32.ext
  exact h

theorem escHeadNat_escapeChar (c : Char) (x : List Char) :
    escHeadNat (escapeChar c ++ x) = c.toNat := by
  unfold escapeChar
  split_ifs with h1 h2 h3 h4 h5 h6 h7 h8
  · subst h1; simp [escHeadNat]
  · subst h2; simp [escHeadNat]
  · subst h3; simp [escHeadNat]
  · subst h4; simp [escHeadNat]
  · subst h5; simp [escHeadNat]
  · subst h6; simp [escHeadNat]
  · subst h7; simp [escHeadNat]
  · have d1 : c.toNat / 16 < 16 := by omega
    have d2 : c.toNat % 16 < 16 := by omega
    simp [escHeadNat, hexVal_hexDigit _ d1, hexVal_hexDigit _ d2]
    omega
  · cases x with
    | nil => simp [escHeadNat]
    | cons b rest => simp [escHeadNat, h2]

theorem escapeChar_peel {c c' : Char} {x y : List Char}
    (h : escapeChar c ++ x = escapeChar c' ++ y) : c = c' ∧ x = y := by
  have hn : c = c' := by
    apply char_toNat_inj
    rw [← escHeadNat_escapeChar c x, ← escHeadNat_escapeChar c' y, h]
  subst hn
  exact ⟨rfl, List.append_cancel_left h⟩

theorem escapeChar_ne_quote (c : Char) (x y : List Char) :
    escapeChar c ++ x ≠ '"' :: y := by
  unfold escapeChar
  split_ifs <;> simp_all

theorem escChars_peel :
    ∀ {s t : List Char} {r1 r2 : List Char},
      escChars s ++ ('"' :: r1) = escChars t ++ ('"' :: r2) → s = t ∧ r1 = r2 := by
  intro s
  induction s with
  | nil =>
    intro t r1 r2 h
    cases t with
    | nil => simpa [escChars] using h
    | cons c cs =>
      rw [escChars, escChars, List.nil_append, List.append_assoc] at h
      exact absurd h.symm (escapeChar_ne_quote c _ _)
  | cons c cs ih =>
    intro t r1 r2 h
    cases t with
    | nil =>
      rw [escChars, escChars, List.nil_append, List.append_assoc] at h
      exact absurd h (escapeChar_ne_quote c _ _)
    | cons c' cs' =>
      rw [escChars, escChars, List.append_assoc, List.append_assoc] at h
      obtain ⟨hc, ht⟩ := escapeChar_peel h
      obtain ⟨hcs, hr⟩ := ih ht
      exact ⟨by rw [hc, hcs], hr⟩

theorem quoteOut_peel {a b : String} {r1 r2 : List Char}
    (h : quoteOut a r1 = quoteOut b r2) : a = b ∧ r1 = r2 := by
  rw [quoteOut, quoteOut] at h
  injection h with h1 h2
  obtain ⟨hd, hr⟩ := escChars_peel h2
  exact ⟨String.ext hd, hr⟩

theorem fieldOut_peel {f g : NormField} {r1 r2 : List Char}
    (h : fieldOut f r1 = fieldOut g r2) : f = g ∧ r1 = r2 := by
  rw [fieldOut, fieldOut] at h
  have h1 := List.append_cancel_left h
  obtain ⟨hn, h2⟩ := quoteOut_peel h1
  have h3 := List.append_cancel_left h2
  obtain ⟨ht, h4⟩ := quoteOut_peel h3
  cases f; cases g
  simp_all

theorem fieldsTail_peel :
    ∀ {fs gs : List NormField} {r1 r2 : List Char},
      fieldsTail fs r1 = fieldsTail gs r2 → fs = gs ∧ r1 = r2 := by
  intro fs
  induction fs with
  | nil =>
    intro gs r1 r2 h
    cases gs with
    | nil => simpa [fieldsTail] using h
    | cons g gs' =>
      rw [fieldsTail, fieldsTail] at h
      simp at h
  | cons f fs' ih =>
    intro gs r1 r2 h
    cases gs with
    | nil =>
      rw [fieldsTail, fieldsTail] at h
      simp at h
    | cons g gs' =>
      rw [fieldsTail, fieldsTail] at h
      obtain ⟨hf, ht⟩ := fieldOut_peel (List.cons.inj h).2
      obtain ⟨hfs, hr⟩ := ih ht
      exact ⟨by rw [hf, hfs], hr⟩

theorem fieldsOut_peel {fs gs : List NormField} {r1 r2 : List Char}
    (h : fieldsOut fs r1 = fieldsOut gs r2) : fs = gs ∧ r1 = r2 := by
  cases fs with
  | nil =>
    cases gs with
    | nil => simpa [fieldsOut] using h
    | cons g gs' =>
      rw [fieldsOut, fieldsOut, fieldOut] at h
      simp [litNameKey] at h
      exact absurd h.1 (by decide)
  | cons f fs' =>
    cases gs with
    | nil =>
      rw [fieldsOut, fieldsOut, fieldOut] at h
      simp [litNameKey] at h
      exact absurd h.1 (by decide)
    | cons g gs' =>
      rw [fieldsOut, fieldsOut] at h
      obtain ⟨hf, ht⟩ := fieldOut_peel h
      obtain ⟨hfs, hr⟩ := fieldsTail_peel ht
      exact ⟨by rw [hf, hfs], hr⟩

theorem collOut_peel {c d : NormCollection} {r1 r2 : List Char}
    (h : collOut c r1 = collOut d r2) : c = d ∧ r1 = r2 := by
  rw [collOut, collOut] at h
  have h1 := List.append_cancel_left h
  obtain ⟨hn, h2⟩ := quoteOut_peel h1
  have h3 := List.append_cancel_left h2
  obtain ⟨hf, h4⟩ := fieldsOut_peel h3
  cases c; cases d
  simp_all

theorem collsTail_peel :
    ∀ {cs ds : List NormCollection} {r1 r2 : List Char},
      collsTail cs r1 = collsTail ds r2 → cs = ds ∧ r1 = r2 := by
  intro cs
  induction cs with
  | nil =>
    intro ds r1 r2 h
    cases ds with
    | nil => simpa [collsTail] using h
    | cons d ds' =>
      rw [collsTail, collsTail] at h
      simp at h
  | cons c cs' ih =>
    intro ds r1 r2 h
    cases ds with
    | nil =>
      rw [collsTail, collsTail] at h
      simp at h
    | cons d ds' =>
      rw [collsTail, collsTail] at h
      obtain ⟨hc, ht⟩ := collOut_peel (List.cons.inj h).2
      obtain ⟨hcs, hr⟩ := ih ht
      exact ⟨by rw [hc, hcs], hr⟩

theorem collsOut_peel {cs ds : List NormCollection} {r1 r2 : List Char}
    (h : collsOut cs r1 = collsOut ds r2) : cs = ds ∧ r1 = r2 := by
  cases cs with
  | nil =>
    cases ds with
    | nil => simpa [collsOut] using h
    | cons d ds' =>
      rw [collsOut, collsOut, collOut] at h
      simp [litNameKey] at h
      exact absurd h.1 (by decide)
  | cons c cs' =>
    cases ds with
    | nil =>
      rw [collsOut, collsOut, collOut] at h
      simp [litNameKey] at h
      exact absurd h.1 (by decide)
    | cons d ds' =>
      rw [collsOut, collsOut] at h
      obtain ⟨hc, ht⟩ := collOut_peel h
      obtain ⟨hcs, hr⟩ := collsTail_peel ht
      exact ⟨by rw [hc, hcs], hr⟩

/-- The serialization is injective: equal encodings mean equal digests. -/
theorem jstringify_inj {m n : NormSchema} (h : jstringify m = jstringify n) :
    m = n := by
  rw [jstringify, jstringify] at h
  have h1 : litCollsKey ++ collsOut m.collections [rbrace] =
      litCollsKey ++ collsOut n.collections [rbrace] := congrArg String.data h
  obtain ⟨hc, _⟩ := collsOut_peel (List.append_cancel_left h1)
  cases m; cases n
  simp_all

/-! ## Generic facts about the stable sort

`Array.prototype.sort` with a comparator derived from a key function is a
stable sort for the total preorder `k a ≤ k b`.  The three lemmas below are
the facts the claims need: sortedness, invariance under permutation when the
keys are distinct, and stability in its filter form (the elements of each key
class appear in the output in their input order). -/

section SortFacts

variable {α : Type} {β : Type} [LinearOrder β] (k : α → β)
variable (r : α → α → Prop) [DecidableRel r]

theorem sorted_insertionSort_key (hr : ∀ a b, r a b ↔ k a ≤ k b) (l : List α) :
    List.Pairwise r (List.insertionSort r l) := by
  haveI : IsTotal α r :=
    ⟨fun a b => (le_total (k a) (k b)).imp ((hr a b).mpr) ((hr b a).mpr)⟩
  haveI : IsTrans α r :=
    ⟨fun a b c h1 h2 => (hr a c).mpr (le_trans ((hr a b).mp h1) ((hr b c).mp h2))⟩
  exact List.sorted_insertionSort r l

omit [DecidableRel r] in
theorem pairwise_key_lt_of_nodup (hr : ∀ a b, r a b ↔ k a ≤ k b)
    {m : List α} (hs : List.Pairwise r m)
    (nd : (m.map k).Nodup) : List.Pairwise (fun a b => k a < k b) m := by
  have h2 : List.Pairwise (fun a b => k a ≠ k b) m := List.pairwise_map.mp nd
  exact (hs.and h2).imp fun hab => lt_of_le_of_ne ((hr _ _).mp hab.1) hab.2

theorem insertionSort_eq_of_perm (hr : ∀ a b, r a b ↔ k a ≤ k b)
    {l1 l2 : List α} (hp : l1.Perm l2)
    (nd : (l1.map k).Nodup) :
    List.insertionSort r l1 = List.insertionSort r l2 := by
  haveI : IsAntisymm α (fun a b => k a < k b) :=
    ⟨fun a b h1 h2 => absurd (lt_trans h1 h2) (lt_irrefl _)⟩
  have nd1 : ((List.insertionSort r l1).map k).Nodup :=
    (((List.perm_insertionSort r l1).map k).nodup_iff).mpr nd
  have nd2 : ((List.insertionSort r l2).map k).Nodup :=
    (((List.perm_insertionSort r l2).map k).nodup_iff).mpr
      (((hp.map k).nodup_iff).mp nd)
  exact List.eq_of_perm_of_sorted
    ((List.perm_insertionSort r l1).trans (hp.trans (List.perm_insertionSort r l2).symm))
    (pairwise_key_lt_of_nodup k r hr (sorted_insertionSort_key k r hr l1) nd1)
    (pairwise_key_lt_of_nodup k r hr (sorted_insertionSort_key k r hr l2) nd2)

theorem orderedInsert_filter_hit (hr : ∀ a b, r a b ↔ k a ≤ k b)
    {p : α → Bool} {c : β} (hpc : ∀ a, p a = true ↔ k a = c)
    (x : α) (hx : k x = c) (m : List α) :
    (List.orderedInsert r x m).filter p = x :: m.filter p := by
  have hpx : p x = true := (hpc x).mpr hx
  induction m with
  | nil => simp [List.orderedInsert, hpx]
  | cons b m ih =>
    rw [List.orderedInsert]
    by_cases hrb : r x b
    · rw [if_pos hrb, List.filter_cons, List.filter_cons]
      simp [hpx]
    · rw [if_neg hrb, List.filter_cons, List.filter_cons, ih]
      have hb : p b = false := by
        rw [Bool.eq_false_iff]
        intro hbt
        exact hrb ((hr x b).mpr (le_of_eq (hx.trans ((hpc b).mp hbt).symm)))
      simp [hb]

omit [LinearOrder β] in
theorem orderedInsert_filter_miss {p : α → Bool} {c : β}
    (hpc : ∀ a, p a = true ↔ k a = c) (x : α) (hx : k x ≠ c) (m : List α) :
    (List.orderedInsert r x m).filter p = m.filter p := by
  have hpx : p x = false := by
    rw [Bool.eq_false_iff]
    intro hxt
    exact hx ((hpc x).mp hxt)
  induction m with
  | nil => simp [List.orderedInsert, hpx]
  | cons b m ih =>
    rw [List.orderedInsert]
    by_cases hrb : r x b
    · rw [if_pos hrb, List.filter_cons]
      simp [hpx]
    · rw [if_neg hrb, List.filter_cons, List.filter_cons, ih]

theorem insertionSort_filter_key (hr : ∀ a b, r a b ↔ k a ≤ k b)
    {p : α → Bool} {c : β} (hpc : ∀ a, p a = true ↔ k a = c) (l : List α) :
    (List.insertionSort r l).filter p = l.filter p := by
  induction l with
  | nil => rfl
  | cons a l ih =>
    show (List.orderedInsert r a (List.insertionSort r l)).filter _ = _
    by_cases ha : k a = c
    · rw [orderedInsert_filter_hit k r hr hpc a ha, ih, List.filter_cons,
        if_pos ((hpc a).mpr ha)]
    · rw [orderedInsert_filter_miss k r hpc a ha, ih, List.filter_cons,
        if_neg (by rw [(hpc a)]; exact ha)]

end SortFacts

/-! ## Idempotence of `jsTrim` -/

theorem head?_dropWhile {α : Type} (p : α → Bool) :
    ∀ (l : List α) {a : α}, (l.dropWhile p).head? = some a → p a = false := by
  intro l
  induction l with
  | nil => intro a h; simp [List.dropWhile] at h
  | cons x t ih =>
    intro a h
    rw [List.dropWhile_cons] at h
    by_cases hx : p x
    · rw [if_pos hx] at h
      exact ih h
    · rw [if_neg hx] at h
      simp only [List.head?_cons, Option.some.injEq] at h
      subst h
      simpa using hx

theorem getLast?_of_suffix {α : Type} {l m : List α} (h : l <:+ m)
    (hne : l ≠ []) : m.getLast? = l.getLast? := by
  obtain ⟨w, rfl⟩ := h
  rw [List.getLast?_append]
  cases hl : l.getLast? with
  | none => exact absurd (List.getLast?_eq_none_iff.mp hl) hne
  | some a => rfl

theorem dropWhile_eq_self_of_head {α : Type} (p : α → Bool) (l : List α)
    (h : ∀ a, l.head? = some a → p a = false) : l.dropWhile p = l := by
  cases l with
  | nil => rfl
  | cons x t => rw [List.dropWhile_cons, if_neg (by simp [h x rfl])]

theorem dropWhile_idem {α : Type} (p : α → Bool) (l : List α) :
    (l.dropWhile p).dropWhile p = l.dropWhile p := by
  apply dropWhile_eq_self_of_head
  intro a h
  exact head?_dropWhile p l h

theorem trimChars_idem (l : List Char) : trimChars (trimChars l) = trimChars l := by
  unfold trimChars
  set A := l.dropWhile isJsWhitespace with hA
  set B := A.reverse.dropWhile isJsWhitespace with hB
  have h1 : B.reverse.dropWhile isJsWhitespace = B.reverse := by
    apply dropWhile_eq_self_of_head
    intro a ha
    rw [List.head?_reverse] at ha
    by_cases hBnil : B = []
    · rw [hBnil] at ha; simp at ha
    · have hsuf : A.reverse.getLast? = B.getLast? :=
        getLast?_of_suffix (hB ▸ List.dropWhile_suffix isJsWhitespace) hBnil
      rw [ha, List.getLast?_reverse] at hsuf
      exact head?_dropWhile isJsWhitespace l hsuf
  rw [h1, List.reverse_reverse, dropWhile_idem]

theorem jsTrim_idem (s : String) : jsTrim (jsTrim s) = jsTrim s := by
  unfold jsTrim
  exact String.ext (trimChars_idem s.data)

/-! ## The variant grouper (src/App.tsx lines 104-162)

`handleRobustnessTest` zips the five responses with
`temperatures = [0.5, 0.6, 0.7, 0.8, 0.9]`, skips invalid pairs with a
`console.log` diagnostic, inserts the rest into a `Map` keyed by the
serialized digest (first insertion creates the group with the response as
representative, later ones push the temperature), formats the values with a
`count`, sorts by `count` descending with the stable `Array.prototype.sort`,
and derives the score from the first group's count.

The grouping core is embedded over an arbitrary ordered sequence of
`(response?, temperature)` pairs, as the per-index `forEach` traversal of the
zipped sequence; temperatures are exact rationals (they are only labels:
the code never computes with them). -/

/-- The five sampling temperatures of `runRobustnessTest`
(src/services/geminiService.ts line 87 and src/App.tsx line 112). -/
def robustnessTemperatures : List ℚ := [0.5, 0.6, 0.7, 0.8, 0.9]

/-- The `Map` value before `count` is attached:
`{ representative, temperatures }`. -/
structure PreGroup where
  representative : GeminiResponse
  temperatures : List ℚ
deriving DecidableEq, Repr

/-- The formatted group (src/types.ts): `{ representative, temperatures,
count }`. -/
structure RobustnessGroup where
  representative : GeminiResponse
  temperatures : List ℚ
  count : ℕ
deriving DecidableEq, Repr

/-- The `Map` insertion of one valid pair (src/App.tsx lines 130-137): if the
key is present, push the temperature onto that group, otherwise append a new
`{representative, temperatures: [t]}` entry (JS `Map` preserves insertion
order). -/
def insertPair : List (String × PreGroup) → String → GeminiResponse → ℚ →
    List (String × PreGroup)
  | [], key, r, t => [(key, ⟨r, [t]⟩)]
  | (k, g) :: rest, key, r, t =>
    if k = key then (k, ⟨g.representative, g.temperatures ++ [t]⟩) :: rest
    else (k, g) :: insertPair rest key r t

/-- One step of the `responses.forEach` loop (src/App.tsx lines 117-138):
an absent response or absent schema appends the temperature to the
diagnostic log and leaves the map unchanged; a valid pair is inserted under
its serialized-digest key. -/
def groupStep (acc : List (String × PreGroup) × List ℚ)
    (p : Option GeminiResponse × ℚ) : List (String × PreGroup) × List ℚ :=
  match p.1 with
  | none => (acc.1, acc.2 ++ [p.2])
  | some r =>
    match r.schema with
    | none => (acc.1, acc.2 ++ [p.2])
    | some s => (insertPair acc.1 (schemaKey s) r p.2, acc.2)

/-- The whole `forEach` loop: the insertion-ordered key/group map together
with the diagnostic log of discarded temperatures. -/
def groupPairs (pairs : List (Option GeminiResponse × ℚ)) :
    List (String × PreGroup) × List ℚ :=
  pairs.foldl groupStep ([], [])

/-- Attach `count: group.temperatures.length` (src/App.tsx lines 141-143). -/
def toRobustnessGroup (g : PreGroup) : RobustnessGroup :=
  ⟨g.representative, g.temperatures, g.temperatures.length⟩

/-- The sort comparator `(a, b) => b.count - a.count` (src/App.tsx line 144):
`a` sorts no later than `b` exactly when `b.count ≤ a.count`. -/
def groupLE (a b : RobustnessGroup) : Prop :=
  b.count ≤ a.count

instance : DecidableRel groupLE :=
  fun a b => inferInstanceAs (Decidable (b.count ≤ a.count))

/-- The sort key of a group: its count in the dual (descending) order. -/
def groupKey (g : RobustnessGroup) : ℕᵒᵈ :=
  OrderDual.toDual g.count

theorem groupLE_iff (a b : RobustnessGroup) : groupLE a b ↔ groupKey a ≤ groupKey b :=
  Iff.rfl

/-- `formattedGroups` (src/App.tsx lines 141-144): the map's values, with
counts, sorted by count descending. -/
def formatGroups (m : List (String × PreGroup)) : List RobustnessGroup :=
  List.insertionSort groupLE (m.map fun kg => toRobustnessGroup kg.2)

/-- The ordered group sequence the robustness test produces from a pair
sequence. -/
def robustnessGroups (pairs : List (Option GeminiResponse × ℚ)) :
    List RobustnessGroup :=
  formatGroups (groupPairs pairs).1

/-- The diagnostic log of discarded temperatures. -/
def robustnessDiagnostics (pairs : List (Option GeminiResponse × ℚ)) : List ℚ :=
  (groupPairs pairs).2

/-- `maxCount` (src/App.tsx line 148): the first group's count, or 0 when
there are no groups. -/
def robustnessMaxCount (pairs : List (Option GeminiResponse × ℚ)) : ℕ :=
  match robustnessGroups pairs with
  | [] => 0
  | g :: _ => g.count

/-- The stability score (src/App.tsx lines 150-154). -/
def robustnessScore (pairs : List (Option GeminiResponse × ℚ)) : ℕ :=
  let m := robustnessMaxCount pairs
  if m = 5 then 100
  else if m = 4 then 75
  else if m = 3 then 50
  else if m = 2 then 25
  else 0

/-- The grouping key of a response (total on responses; the grouper only
evaluates it on responses with a present schema). -/
def responseKey (r : GeminiResponse) : String :=
  match r.schema with
  | some s => schemaKey s
  | none => ""

/-- A pair is kept by the grouper exactly when the response and its schema
are present (`!response || !response.schema` is the discard test). -/
def pairValid (p : Option GeminiResponse × ℚ) : Bool :=
  match p.1 with
  | some r => r.schema.isSome
  | none => false

/-- The valid pairs, in processing order. -/
def validPairs (pairs : List (Option GeminiResponse × ℚ)) :
    List (GeminiResponse × ℚ) :=
  pairs.filterMap fun p =>
    match p.1 with
    | some r => if r.schema.isSome then some (r, p.2) else none
    | none => none

/-- The temperatures of the discarded pairs, in processing order. -/
def invalidTemps (pairs : List (Option GeminiResponse × ℚ)) : List ℚ :=
  (pairs.filter fun p => !pairValid p).map Prod.snd

/-! ### A direct description of the insertion-ordered map

`firstOcc` is first-occurrence deduplication (also the behaviour of JS
`new Set`, used by the highlighter below). -/

/-- Keep the first occurrence of each element, given the set of elements
already seen. -/
def firstOccAux {α : Type} [DecidableEq α] (seen : List α) : List α → List α
  | [] => []
  | a :: l =>
    if a ∈ seen then firstOccAux seen l else a :: firstOccAux (a :: seen) l

/-- First-occurrence deduplication, preserving order. -/
def firstOcc {α : Type} [DecidableEq α] (l : List α) : List α :=
  firstOccAux [] l

/-- The temperatures of the pairs carrying a given key, in processing
order. -/
def tempsFor (ps : List (GeminiResponse × ℚ)) (key : String) : List ℚ :=
  (ps.filter fun p => responseKey p.1 = key).map Prod.snd

/-- The first response carrying a given key. -/
def firstRespFor (ps : List (GeminiResponse × ℚ)) (key : String) :
    Option GeminiResponse :=
  (ps.find? fun p => responseKey p.1 = key).map Prod.fst

/-- The closed form of the insertion-ordered map: one entry per distinct key
in first-occurrence order, whose representative is the first response with
that key and whose temperature list collects, in processing order, the
temperatures of the pairs with that key. -/
def specGroups (ps : List (GeminiResponse × ℚ)) : List (String × PreGroup) :=
  (firstOcc (ps.map fun p => responseKey p.1)).map fun key =>
    (key, ⟨(firstRespFor ps key).getD ⟨none, ""⟩, tempsFor ps key⟩)

theorem firstOccAux_cons {α : Type} [DecidableEq α] (seen : List α) (a : α)
    (l : List α) :
    firstOccAux seen (a :: l) =
      if a ∈ seen then firstOccAux seen l else a :: firstOccAux (a :: seen) l :=
  rfl

theorem mem_firstOccAux {α : Type} [DecidableEq α] :
    ∀ (l : List α) (seen : List α) (x : α),
      x ∈ firstOccAux seen l ↔ x ∈ l ∧ x ∉ seen := by
  intro l
  induction l with
  | nil => intro seen x; simp [firstOccAux]
  | cons a l ih =>
    intro seen x
    rw [firstOccAux_cons]
    by_cases ha : a ∈ seen
    · rw [if_pos ha, ih]
      constructor
      · rintro ⟨h1, h2⟩
        exact ⟨List.mem_cons_of_mem a h1, h2⟩
      · rintro ⟨h1, h2⟩
        rcases List.mem_cons.mp h1 with rfl | h1
        · exact absurd ha h2
        · exact ⟨h1, h2⟩
    · rw [if_neg ha]
      constructor
      · intro hmem
        rcases List.mem_cons.mp hmem with rfl | hmem
        · exact ⟨List.mem_cons_self _ _, ha⟩
        · obtain ⟨h1, h2⟩ := (ih (a :: seen) x).mp hmem
          exact ⟨List.mem_cons_of_mem a h1,
            fun hx => h2 (List.mem_cons_of_mem a hx)⟩
      · rintro ⟨h1, h2⟩
        rcases List.mem_cons.mp h1 with rfl | h1
        · exact List.mem_cons_self x _
        · by_cases hxa : x = a
          · exact hxa ▸ List.mem_cons_self a _
          · refine List.mem_cons_of_mem a ((ih (a :: seen) x).mpr ⟨h1, ?_⟩)
            intro hx
            rcases List.mem_cons.mp hx with h | h
            · exact hxa h
            · exact h2 h

theorem mem_firstOcc {α : Type} [DecidableEq α] (l : List α) (x : α) :
    x ∈ firstOcc l ↔ x ∈ l := by
  rw [firstOcc, mem_firstOccAux]
  simp

theorem nodup_firstOccAux {α : Type} [DecidableEq α] :
    ∀ (l : List α) (seen : List α), (firstOccAux seen l).Nodup := by
  intro l
  induction l with
  | nil => intro seen; simp [firstOccAux]
  | cons a l ih =>
    intro seen
    rw [firstOccAux]
    by_cases ha : a ∈ seen
    · rw [if_pos ha]; exact ih seen
    · rw [if_neg ha]
      refine List.Nodup.cons ?_ (ih (a :: seen))
      intro hmem
      exact ((mem_firstOccAux l (a :: seen) a).mp hmem).2 (List.mem_cons_self a seen)

theorem nodup_firstOcc {α : Type} [DecidableEq α] (l : List α) :
    (firstOcc l).Nodup :=
  nodup_firstOccAux l []

theorem firstOccAux_append_single {α : Type} [DecidableEq α] :
    ∀ (l : List α) (seen : List α) (x : α),
      firstOccAux seen (l ++ [x]) =
        firstOccAux seen l ++ (if x ∈ seen ∨ x ∈ l then [] else [x]) := by
  intro l
  induction l with
  | nil =>
    intro seen x
    rw [List.nil_append, firstOccAux_cons, firstOccAux, firstOccAux]
    by_cases hx : x ∈ seen
    · rw [if_pos hx, if_pos (Or.inl hx)]
      rfl
    · rw [if_neg hx, if_neg (by simp [hx])]
      rfl
  | cons a l ih =>
    intro seen x
    rw [List.cons_append, firstOccAux_cons, firstOccAux_cons]
    by_cases ha : a ∈ seen
    · rw [if_pos ha, if_pos ha, ih]
      refine congrArg (firstOccAux seen l ++ ·) (if_congr ?_ rfl rfl)
      constructor
      · rintro (h | h)
        · exact Or.inl h
        · exact Or.inr (List.mem_cons_of_mem a h)
      · rintro (h | h)
        · exact Or.inl h
        · rcases List.mem_cons.mp h with rfl | h
          · exact Or.inl ha
          · exact Or.inr h
    · rw [if_neg ha, if_neg ha, ih, List.cons_append]
      refine congrArg (a :: ·) (congrArg (firstOccAux (a :: seen) l ++ ·) (if_congr ?_ rfl rfl))
      constructor
      · rintro (h | h)
        · rcases List.mem_cons.mp h with rfl | h
          · exact Or.inr (List.mem_cons_self _ _)
          · exact Or.inl h
        · exact Or.inr (List.mem_cons_of_mem a h)
      · rintro (h | h)
        · exact Or.inl (List.mem_cons_of_mem a h)
        · rcases List.mem_cons.mp h with rfl | h
          · exact Or.inl (List.mem_cons_self _ _)
          · exact Or.inr h

theorem firstOcc_append_single {α : Type} [DecidableEq α] (l : List α) (x : α) :
    firstOcc (l ++ [x]) = firstOcc l ++ (if x ∈ l then [] else [x]) := by
  rw [firstOcc, firstOcc, firstOccAux_append_single]
  simp

theorem insertPair_not_mem :
    ∀ (m : List (String × PreGroup)) {key : String} (r : GeminiResponse) (t : ℚ),
      key ∉ m.map Prod.fst → insertPair m key r t = m ++ [(key, ⟨r, [t]⟩)] := by
  intro m
  induction m with
  | nil => intro key r t _; rfl
  | cons kg rest ih =>
    intro key r t hmem
    obtain ⟨k, g⟩ := kg
    rw [List.map_cons] at hmem
    have h1 : k ≠ key := fun h => hmem (h ▸ List.mem_cons_self _ _)
    have h2 : key ∉ rest.map Prod.fst := fun h => hmem (List.mem_cons_of_mem _ h)
    rw [insertPair, if_neg h1, ih r t h2]
    rfl

theorem insertPair_mem :
    ∀ (m : List (String × PreGroup)), (m.map Prod.fst).Nodup →
      ∀ {key : String} (r : GeminiResponse) (t : ℚ), key ∈ m.map Prod.fst →
      insertPair m key r t =
        m.map fun kg =>
          if kg.1 = key then (kg.1, ⟨kg.2.representative, kg.2.temperatures ++ [t]⟩)
          else kg := by
  intro m
  induction m with
  | nil => intro _ key r t hmem; simp at hmem
  | cons kg rest ih =>
    intro hnd key r t hmem
    obtain ⟨k, g⟩ := kg
    rw [List.map_cons] at hnd
    have hnd1 : k ∉ rest.map Prod.fst := (List.nodup_cons.mp hnd).1
    have hnd2 : (rest.map Prod.fst).Nodup := (List.nodup_cons.mp hnd).2
    by_cases hk : k = key
    · subst hk
      rw [insertPair, if_pos rfl, List.map_cons]
      rw [if_pos rfl]
      have hcg : ∀ kg' ∈ rest, ((fun kg =>
          if kg.1 = k then (kg.1, (⟨kg.2.representative, kg.2.temperatures ++ [t]⟩ : PreGroup))
          else kg) kg') = kg' := by
        intro kg' hkg'
        have hne : kg'.1 ≠ k := fun h =>
          hnd1 (h ▸ List.mem_map_of_mem Prod.fst hkg')
        simp [hne]
      rw [List.map_congr_left hcg, List.map_id']
    · rw [List.map_cons] at hmem
      have hmem2 : key ∈ rest.map Prod.fst := by
        rcases List.mem_cons.mp hmem with h | h
        · exact absurd h.symm hk
        · exact h
      rw [insertPair, if_neg hk, List.map_cons, if_neg hk, ih hnd2 r t hmem2]

theorem specGroups_keys (ps : List (GeminiResponse × ℚ)) :
    (specGroups ps).map Prod.fst = firstOcc (ps.map fun p => responseKey p.1) := by
  rw [specGroups, List.map_map]
  exact List.map_id' _

theorem firstRespFor_append_of_mem {ps : List (GeminiResponse × ℚ)}
    {key : String} (h : key ∈ ps.map fun p => responseKey p.1)
    (qs : List (GeminiResponse × ℚ)) :
    firstRespFor (ps ++ qs) key = firstRespFor ps key := by
  rw [firstRespFor, firstRespFor, List.find?_append]
  obtain ⟨p, hp, hkey⟩ := List.mem_map.mp h
  cases hfind : ps.find? fun p => responseKey p.1 = key with
  | none =>
    rw [List.find?_eq_none] at hfind
    exact absurd (by simpa using hkey) (by simpa using hfind p hp)
  | some v => rfl

theorem find?_eq_none_of_not_mem {ps : List (GeminiResponse × ℚ)}
    {key : String} (h : key ∉ ps.map fun p => responseKey p.1) :
    (ps.find? fun p => responseKey p.1 = key) = none := by
  rw [List.find?_eq_none]
  intro p hp
  simp only [decide_eq_true_eq]
  intro hkey
  exact h (List.mem_map.mpr ⟨p, hp, hkey⟩)

theorem tempsFor_append (ps qs : List (GeminiResponse × ℚ)) (key : String) :
    tempsFor (ps ++ qs) key = tempsFor ps key ++ tempsFor qs key := by
  rw [tempsFor, tempsFor, tempsFor, List.filter_append, List.map_append]

theorem tempsFor_eq_nil_of_not_mem {ps : List (GeminiResponse × ℚ)}
    {key : String} (h : key ∉ ps.map fun p => responseKey p.1) :
    tempsFor ps key = [] := by
  rw [tempsFor, List.map_eq_nil_iff, List.filter_eq_nil_iff]
  intro p hp
  simp only [decide_eq_true_eq]
  intro hkey
  exact h (List.mem_map.mpr ⟨p, hp, hkey⟩)

theorem specGroups_append_single (ps : List (GeminiResponse × ℚ))
    (r : GeminiResponse) (t : ℚ) :
    specGroups (ps ++ [(r, t)]) =
      if responseKey r ∈ ps.map (fun p => responseKey p.1) then
        (specGroups ps).map fun kg =>
          if kg.1 = responseKey r then
            (kg.1, ⟨kg.2.representative, kg.2.temperatures ++ [t]⟩)
          else kg
      else specGroups ps ++ [(responseKey r, ⟨r, [t]⟩)] := by
  have hmapapp : ((ps ++ [(r, t)]).map fun p => responseKey p.1) =
      (ps.map fun p => responseKey p.1) ++ [responseKey r] := by
    rw [List.map_append]; rfl
  by_cases hmem : responseKey r ∈ ps.map fun p => responseKey p.1
  · rw [if_pos hmem, specGroups, specGroups, hmapapp, firstOcc_append_single,
      if_pos hmem, List.append_nil, List.map_map]
    apply List.map_congr_left
    intro k hk
    have hkmem : k ∈ ps.map fun p => responseKey p.1 := (mem_firstOcc _ _).mp hk
    by_cases hkey : k = responseKey r
    · subst hkey
      simp only [Function.comp_apply, if_pos rfl]
      rw [firstRespFor_append_of_mem hkmem, tempsFor_append]
      have ht : tempsFor [(r, t)] (responseKey r) = [t] := by
        rw [tempsFor, List.filter_cons]
        simp
      rw [ht]
      simp
    · simp only [Function.comp_apply, if_neg hkey]
      rw [firstRespFor_append_of_mem hkmem, tempsFor_append]
      have hne : ¬responseKey r = k := fun h => hkey h.symm
      have ht : tempsFor [(r, t)] k = [] := by
        rw [tempsFor, List.filter_cons]
        simp [hne]
      rw [ht, List.append_nil]
  · rw [if_neg hmem, specGroups, specGroups, hmapapp, firstOcc_append_single,
      if_neg hmem, List.map_append]
    congr 1
    · apply List.map_congr_left
      intro k hk
      have hkmem : k ∈ ps.map fun p => responseKey p.1 := (mem_firstOcc _ _).mp hk
      have hkey : k ≠ responseKey r := fun h => hmem (h ▸ hkmem)
      have hne : ¬responseKey r = k := fun h => hkey h.symm
      rw [firstRespFor_append_of_mem hkmem, tempsFor_append]
      have ht : tempsFor [(r, t)] k = [] := by
        rw [tempsFor, List.filter_cons]
        simp [hne]
      rw [ht, List.append_nil]
    · rw [List.map_cons, List.map_nil]
      have hresp : firstRespFor (ps ++ [(r, t)]) (responseKey r) = some r := by
        rw [firstRespFor, List.find?_append, find?_eq_none_of_not_mem hmem]
        simp [List.find?_cons]
      have ht : tempsFor (ps ++ [(r, t)]) (responseKey r) = [t] := by
        rw [tempsFor_append, tempsFor_eq_nil_of_not_mem hmem, List.nil_append,
          tempsFor, List.filter_cons]
        simp
      rw [hresp, ht]
      rfl

theorem insertPair_specGroups (ps : List (GeminiResponse × ℚ))
    (r : GeminiResponse) (t : ℚ) :
    insertPair (specGroups ps) (responseKey r) r t =
      specGroups (ps ++ [(r, t)]) := by
  rw [specGroups_append_single]
  by_cases hmem : responseKey r ∈ ps.map fun p => responseKey p.1
  · rw [if_pos hmem]
    have hnd : ((specGroups ps).map Prod.fst).Nodup := by
      rw [specGroups_keys]; exact nodup_firstOcc _
    have hkmem : responseKey r ∈ (specGroups ps).map Prod.fst := by
      rw [specGroups_keys, mem_firstOcc]; exact hmem
    exact insertPair_mem (specGroups ps) hnd r t hkmem
  · rw [if_neg hmem]
    have hkmem : responseKey r ∉ (specGroups ps).map Prod.fst := by
      rw [specGroups_keys, mem_firstOcc]; exact hmem
    exact insertPair_not_mem (specGroups ps) r t hkmem

theorem validPairs_cons_none (t : ℚ) (rest : List (Option GeminiResponse × ℚ)) :
    validPairs ((none, t) :: rest) = validPairs rest := rfl

theorem validPairs_cons_invalid {r : GeminiResponse} (hs : r.schema = none)
    (t : ℚ) (rest : List (Option GeminiResponse × ℚ)) :
    validPairs ((some r, t) :: rest) = validPairs rest := by
  rw [validPairs, List.filterMap_cons]
  simp only [hs]
  rfl

theorem validPairs_cons_valid {r : GeminiResponse} {s : Schema}
    (hs : r.schema = some s) (t : ℚ) (rest : List (Option GeminiResponse × ℚ)) :
    validPairs ((some r, t) :: rest) = (r, t) :: validPairs rest := by
  rw [validPairs, List.filterMap_cons]
  simp only [hs]
  rfl

theorem invalidTemps_cons_none (t : ℚ) (rest : List (Option GeminiResponse × ℚ)) :
    invalidTemps ((none, t) :: rest) = t :: invalidTemps rest := by
  rw [invalidTemps, List.filter_cons,
    if_pos (show (!pairValid (none, t)) = true from rfl), List.map_cons]
  rfl

theorem invalidTemps_cons_invalid {r : GeminiResponse} (hs : r.schema = none)
    (t : ℚ) (rest : List (Option GeminiResponse × ℚ)) :
    invalidTemps ((some r, t) :: rest) = t :: invalidTemps rest := by
  rw [invalidTemps, List.filter_cons, if_pos (by simp [pairValid, hs]),
    List.map_cons]
  rfl

theorem invalidTemps_cons_valid {r : GeminiResponse} {s : Schema}
    (hs : r.schema = some s) (t : ℚ) (rest : List (Option GeminiResponse × ℚ)) :
    invalidTemps ((some r, t) :: rest) = invalidTemps rest := by
  rw [invalidTemps, List.filter_cons, if_neg (by simp [pairValid, hs])]
  rfl

theorem foldl_groupStep_spec :
    ∀ (rest : List (Option GeminiResponse × ℚ)) (done : List (GeminiResponse × ℚ))
      (diag : List ℚ),
      rest.foldl groupStep (specGroups done, diag) =
        (specGroups (done ++ validPairs rest), diag ++ invalidTemps rest) := by
  intro rest
  induction rest with
  | nil =>
    intro done diag
    simp [validPairs, invalidTemps]
  | cons p rest ih =>
    intro done diag
    rw [List.foldl_cons]
    obtain ⟨ro, t⟩ := p
    cases ro with
    | none =>
      have hstep : groupStep (specGroups done, diag) (none, t) =
          (specGroups done, diag ++ [t]) := rfl
      rw [hstep, ih done (diag ++ [t]), validPairs_cons_none,
        invalidTemps_cons_none, List.append_assoc]
      rfl
    | some r =>
      cases hs : r.schema with
      | none =>
        have hstep : groupStep (specGroups done, diag) (some r, t) =
            (specGroups done, diag ++ [t]) := by
          rw [groupStep]
          simp [hs]
        rw [hstep, ih done (diag ++ [t]), validPairs_cons_invalid hs,
          invalidTemps_cons_invalid hs, List.append_assoc]
        rfl
      | some s =>
        have hkey : responseKey r = schemaKey s := by rw [responseKey, hs]
        have hstep : groupStep (specGroups done, diag) (some r, t) =
            (insertPair (specGroups done) (schemaKey s) r t, diag) := by
          rw [groupStep]
          simp [hs]
        rw [hstep, ← hkey, insertPair_specGroups, ih (done ++ [(r, t)]) diag,
          validPairs_cons_valid hs, invalidTemps_cons_valid hs,
          List.append_assoc]
        rfl

/-- The `forEach` loop computes exactly the closed form: the map holds one
entry per distinct key in first-occurrence order, with the first response as
representative and the processing-ordered temperatures; the log holds the
temperatures of the invalid pairs. -/
theorem groupPairs_spec (pairs : List (Option GeminiResponse × ℚ)) :
    groupPairs pairs = (specGroups (validPairs pairs), invalidTemps pairs) := by
  have h := foldl_groupStep_spec pairs [] []
  rw [groupPairs]
  have h0 : specGroups [] = [] := rfl
  rw [h0] at h
  simpa using h

/-! ## The requirement highlighter (src/components/RequirementHighlighter.tsx)

The component renders the requirements text as a sequence of plain segments
and highlighted (`<span>`-marked) segments:

* empty or absent highlight list: the whole text as one plain segment;
* otherwise: de-duplicate the string highlights with `new Set` (first
  occurrence order), sort by length descending (stable), split the text with
  the case-insensitive alternation regex built from the escaped highlights
  (so each highlight matches literally), drop empty parts, and mark the
  parts equal, lowercased, to some highlight.

`String.prototype.split` with a regex containing one capture group follows
the ECMAScript algorithm: scan left to right; at each position try the
alternation (branches in listed order); an empty match at the current chunk
start only advances the scan; any other match emits the pending chunk and
the captured match.  `scanParts` below implements exactly that scan; the
`fuel` argument only bounds the recursion and is irrelevant once it is at
least the length of the remaining text (all lemmas assume that, and the
entry point passes the full text length). -/

/-- One rendered segment. -/
inductive Seg where
  | plain (s : String)
  | mark (s : String)
deriving DecidableEq, Repr

/-- The text of a segment. -/
def segString : Seg → String
  | .plain s => s
  | .mark s => s

/-- `toLowerCase`, character-wise (exact on ASCII). -/
def lowerChars (l : List Char) : List Char :=
  l.map Char.toLower

/-- Does highlight `h` match (case-insensitively) at the start of `rest`? -/
def matchesAt (h : List Char) (rest : List Char) : Bool :=
  (lowerChars h).isPrefixOf (lowerChars rest)

/-- The sort comparator `(a, b) => b.length - a.length` on highlight
phrases: longer phrases first. -/
def lenDescLE (a b : String) : Prop :=
  b.length ≤ a.length

instance : DecidableRel lenDescLE :=
  fun a b => inferInstanceAs (Decidable (b.length ≤ a.length))

/-- `uniqueHighlights` (RequirementHighlighter.tsx lines 20-23): `new Set`
de-duplication (first occurrence order) followed by the stable sort by
length descending. -/
def uniqueSorted (highlights : List String) : List String :=
  List.insertionSort lenDescLE (firstOcc highlights)

/-- The ECMAScript `split` scan over the text.  `pending` holds the current
chunk, reversed; at each position the first listed branch that matches wins;
an empty-pattern match at the chunk start only advances; the produced list
alternates pending chunks and captured matches and ends with the final
chunk. -/
def scanParts (uh : List String) : Nat → List Char → List Char → List (List Char)
  | _, pending, [] => [pending.reverse]
  | 0, pending, rest => [pending.reverse ++ rest]
  | fuel + 1, pending, c :: rest =>
    match uh.find? (fun h => matchesAt h.data (c :: rest)) with
    | none => scanParts uh fuel (c :: pending) rest
    | some h =>
      if h.data = [] then
        if pending = [] then scanParts uh fuel [c] rest
        else pending.reverse :: [] :: scanParts uh fuel [c] rest
      else
        pending.reverse :: (c :: rest).take h.data.length ::
          scanParts uh fuel [] ((c :: rest).drop h.data.length)

/-- The rendered segment sequence of `RequirementHighlighter`: early return
on an empty highlight list, otherwise split, drop empty parts and mark the
parts that lowercase-equal some unique highlight. -/
def highlighterSegs (text : String) (highlights : List String) : List Seg :=
  if highlights.isEmpty then [Seg.plain text]
  else
    ((scanParts (uniqueSorted highlights) text.data.length []
        text.data).filter fun p => p ≠ []).map
      fun p =>
        if (uniqueSorted highlights).any
            (fun h => lowerChars h.data == lowerChars p) then
          Seg.mark (String.mk p)
        else Seg.plain (String.mk p)

/-! ## The `Promise.all` join of `runRobustnessTest`
(src/services/geminiService.ts lines 90-107)

`runRobustnessTest` creates the five per-temperature `generateContent`
promises eagerly (they are all issued before any is awaited) and joins them
with `await Promise.all(promises)`.  The ECMAScript semantics of that
library call: the combined promise fulfills once **all** inputs have
fulfilled (at the latest fulfillment time), but rejects with the reason of
the **first** input to reject, at that rejection time — it does not wait
for the remaining, still pending, inputs.  The model below records, for a
hypothetical settlement schedule of the five calls, when the combined
promise settles. -/

instance {ε α : Type} [DecidableEq ε] [DecidableEq α] :
    DecidableEq (Except ε α) := fun a b =>
  match a, b with
  | .ok x, .ok y =>
    if h : x = y then isTrue (by rw [h])
    else isFalse (by intro hh; injection hh; contradiction)
  | .error x, .error y =>
    if h : x = y then isTrue (by rw [h])
    else isFalse (by intro hh; injection hh; contradiction)
  | .ok _, .error _ => isFalse (by intro hh; injection hh)
  | .error _, .ok _ => isFalse (by intro hh; injection hh)

/-- One generation call with the time at which it settles and its outcome. -/
structure SettledCall where
  time : ℕ
  outcome : Except String GeminiResponse
deriving DecidableEq, Repr

/-- Did the call reject? -/
def isRejected (c : SettledCall) : Bool :=
  match c.outcome with
  | .error _ => true
  | .ok _ => false

/-- The time at which `Promise.all` over the given calls settles: the latest
settlement time when every call fulfills, else the earliest rejection
time. -/
def promiseAllSettleTime (cs : List SettledCall) : ℕ :=
  match cs.filter isRejected with
  | [] => (cs.map fun c => c.time).foldl max 0
  | r :: rs => (rs.map fun c => c.time).foldl min r.time

/-- The outcome of `Promise.all`: all responses in input order, or the first
rejection's reason. -/
def promiseAllOutcome (cs : List SettledCall) :
    Except String (List GeminiResponse) :=
  match cs.filter isRejected with
  | [] => .ok (cs.filterMap fun c => match c.outcome with
      | .ok r => some r
      | .error _ => none)
  | r :: _ => .error (match r.outcome with
      | .error e => e
      | .ok _ => "")

/-! ## Canonical-form facts used by the idempotence and equivalence claims -/

theorem safeString_trimmed (o : Option String) :
    jsTrim (safeString o) = safeString o := by
  cases o with
  | none => rfl
  | some s => exact jsTrim_idem s

/-- Every collection of a normalized schema is the normalization of some
source collection. -/
theorem mem_normalizeSchema_collections {s : Schema} {nc : NormCollection}
    (h : nc ∈ (normalizeSchema s).collections) :
    ∃ c ∈ s.collections.getD [], nc = normalizeCollection c := by
  rw [normalizeSchema] at h
  have h2 := (List.perm_insertionSort collLE _).mem_iff.mp h
  obtain ⟨c, hc, hceq⟩ := List.mem_map.mp h2
  exact ⟨c, hc, hceq.symm⟩

theorem normalizeCollection_name_trimmed (c : Collection) :
    jsTrim (normalizeCollection c).name = (normalizeCollection c).name :=
  safeString_trimmed c.name

theorem normalizeCollection_fields_sorted (c : Collection) :
    List.Pairwise fieldLE (normalizeCollection c).fields :=
  sorted_insertionSort_key (fun f : NormField => f.name.data) fieldLE
    (fun _ _ => Iff.rfl) _

theorem mem_normalizeCollection_fields {c : Collection} {nf : NormField}
    (h : nf ∈ (normalizeCollection c).fields) :
    ∃ f ∈ c.fields.getD [], nf = normalizeField f := by
  rw [normalizeCollection] at h
  have h2 := (List.perm_insertionSort fieldLE _).mem_iff.mp h
  obtain ⟨f, hf, hfeq⟩ := List.mem_map.mp h2
  exact ⟨f, hf, hfeq.symm⟩

theorem normalizeSchema_sorted (s : Schema) :
    List.Pairwise collLE (normalizeSchema s).collections :=
  sorted_insertionSort_key (fun c : NormCollection => c.name.data) collLE
    (fun _ _ => Iff.rfl) _

/-! ## Claim C7 — defensive handling of degenerate inputs -/

/-- **C7** (confirmed).  `normalizeSchema` never fails on degenerate inputs:
a missing/null `collections` sequence normalizes to the empty sequence, a
missing/null `fields` sequence normalizes to the empty sequence, and a
missing/null/non-string collection name, field name, or field type
normalizes to the empty string. -/
theorem claim7_defensive :
    (∀ s : Schema, s.collections = none → normalizeSchema s = ⟨[]⟩) ∧
    (∀ c : Collection, c.fields = none → (normalizeCollection c).fields = []) ∧
    (∀ c : Collection, c.name = none → (normalizeCollection c).name = "") ∧
    (∀ f : Field, f.name = none → (normalizeField f).name = "") ∧
    (∀ f : Field, f.type = none → (normalizeField f).type = "") := by
  refine ⟨fun s hs => ?_, fun c hc => ?_, fun c hc => ?_, fun f hf => ?_,
    fun f hf => ?_⟩
  · rw [normalizeSchema, hs]; rfl
  · rw [normalizeCollection, hc]; rfl
  · rw [normalizeCollection, hc]; rfl
  · rw [normalizeField, hf]; rfl
  · rw [normalizeField, hf]; rfl

/-- Witness for C7 at concrete degenerate inputs. -/
theorem claim7_defensive_witness :
    normalizeSchema ⟨none⟩ = ⟨[]⟩ ∧
    (normalizeCollection ⟨some "c", none, none, []⟩).fields = [] ∧
    (normalizeCollection ⟨none, none, none, []⟩).name = "" ∧
    (normalizeField ⟨none, some "T", none, []⟩).name = "" ∧
    (normalizeField ⟨some "n", none, none, []⟩).type = "" :=
  ⟨claim7_defensive.1 _ rfl, claim7_defensive.2.1 _ rfl,
   claim7_defensive.2.2.1 _ rfl, claim7_defensive.2.2.2.1 _ rfl,
   claim7_defensive.2.2.2.2 _ rfl⟩

/-! ## Claim C8 — idempotence of normalization -/

/-- Rebuild a `Field` from a normalized field (descriptive parts empty). -/
def fieldOfNorm (f : NormField) : Field :=
  ⟨some f.name, some f.type, none, []⟩

/-- Rebuild a `Collection` from a normalized collection. -/
def collectionOfNorm (c : NormCollection) : Collection :=
  ⟨some c.name, none, some (c.fields.map fieldOfNorm), []⟩

/-- Rebuild a `Schema` from the collections of a normalized schema. -/
def schemaOfNorm (n : NormSchema) : Schema :=
  ⟨some (n.collections.map collectionOfNorm)⟩

theorem normalizeField_ofNorm {f : NormField} (h1 : jsTrim f.name = f.name)
    (h2 : jsTrim f.type = f.type) : normalizeField (fieldOfNorm f) = f := by
  obtain ⟨n, t⟩ := f
  rw [fieldOfNorm, normalizeField]
  simp only [safeString] at h1 h2 ⊢
  rw [h1, h2]

theorem normalizeCollection_ofNorm {c : NormCollection}
    (hn : jsTrim c.name = c.name)
    (hf : ∀ f ∈ c.fields, jsTrim f.name = f.name ∧ jsTrim f.type = f.type)
    (hs : List.Pairwise fieldLE c.fields) :
    normalizeCollection (collectionOfNorm c) = c := by
  obtain ⟨n, fs⟩ := c
  rw [collectionOfNorm, normalizeCollection]
  simp only [Option.getD_some, List.map_map]
  have hmap : ∀ f ∈ fs, (normalizeField ∘ fieldOfNorm) f = f := by
    intro f hfmem
    exact normalizeField_ofNorm (hf f hfmem).1 (hf f hfmem).2
  rw [List.map_congr_left hmap, List.map_id', List.Sorted.insertionSort_eq hs]
  simp only [safeString] at hn ⊢
  rw [hn]

/-- **C8** (confirmed).  Normalization is idempotent: rebuilding a `Schema`
from the collections of `normalizeSchema s` and normalizing the rebuilt
schema yields the identical serialized encoding. -/
theorem claim8_idempotent (s : Schema) :
    jstringify (normalizeSchema (schemaOfNorm (normalizeSchema s))) =
      jstringify (normalizeSchema s) := by
  suffices h : normalizeSchema (schemaOfNorm (normalizeSchema s)) =
      normalizeSchema s by rw [h]
  have hcols : ∀ nc ∈ (normalizeSchema s).collections,
      (normalizeCollection ∘ collectionOfNorm) nc = nc := by
    intro nc hnc
    obtain ⟨c, _, rfl⟩ := mem_normalizeSchema_collections hnc
    refine normalizeCollection_ofNorm (normalizeCollection_name_trimmed c)
      ?_ (normalizeCollection_fields_sorted c)
    intro f hfmem
    obtain ⟨f0, _, rfl⟩ := mem_normalizeCollection_fields hfmem
    exact ⟨safeString_trimmed f0.name, safeString_trimmed f0.type⟩
  have houter : normalizeSchema (schemaOfNorm (normalizeSchema s)) =
      ⟨List.insertionSort collLE (normalizeSchema s).collections⟩ := by
    rw [schemaOfNorm, normalizeSchema]
    simp only [Option.getD_some, List.map_map]
    rw [List.map_congr_left hcols, List.map_id']
  rw [houter, List.Sorted.insertionSort_eq (normalizeSchema_sorted s)]

/-! ## Claim C6 — invalid pairs are skipped, logged, and harmless -/

theorem validPairs_filter_valid (pairs : List (Option GeminiResponse × ℚ)) :
    validPairs (pairs.filter pairValid) = validPairs pairs := by
  induction pairs with
  | nil => rfl
  | cons p rest ih =>
    obtain ⟨ro, t⟩ := p
    cases ro with
    | none =>
      rw [List.filter_cons, if_neg (by simp [pairValid]), validPairs_cons_none]
      exact ih
    | some r =>
      cases hs : r.schema with
      | none =>
        rw [List.filter_cons, if_neg (by simp [pairValid, hs]),
          validPairs_cons_invalid hs]
        exact ih
      | some s =>
        rw [List.filter_cons, if_pos (by simp [pairValid, hs]),
          validPairs_cons_valid hs, validPairs_cons_valid hs, ih]

/-- **C6** (confirmed).  A pair whose response or schema is absent is
discarded with a diagnostic naming its temperature, and discarding does not
abort the grouping: the groups and score computed from the full pair
sequence equal the ones computed from the valid pairs alone. -/
theorem claim6_invalid_skipped (pairs : List (Option GeminiResponse × ℚ)) :
    robustnessDiagnostics pairs =
      (pairs.filter fun p => !pairValid p).map Prod.snd ∧
    robustnessGroups pairs = robustnessGroups (pairs.filter pairValid) ∧
    robustnessScore pairs = robustnessScore (pairs.filter pairValid) := by
  have hg : robustnessGroups pairs = robustnessGroups (pairs.filter pairValid) := by
    rw [robustnessGroups, robustnessGroups, groupPairs_spec, groupPairs_spec,
      validPairs_filter_valid]
  refine ⟨?_, hg, ?_⟩
  · rw [robustnessDiagnostics, groupPairs_spec]
    rfl
  · rw [robustnessScore, robustnessScore, robustnessMaxCount,
      robustnessMaxCount, hg]

/-! ## Claim C3 — the score as a function of the largest group -/

/-- The grouping key of a pair (evaluated by the grouper only on valid
pairs). -/
def pairKey (p : Option GeminiResponse × ℚ) : String :=
  match p.1 with
  | some r => responseKey r
  | none => ""

theorem validPairs_eq_nil {pairs : List (Option GeminiResponse × ℚ)}
    (h : ∀ p ∈ pairs, pairValid p = false) : validPairs pairs = [] := by
  induction pairs with
  | nil => rfl
  | cons p rest ih =>
    obtain ⟨ro, t⟩ := p
    cases ro with
    | none =>
      rw [validPairs_cons_none]
      exact ih fun q hq => h q (List.mem_cons_of_mem _ hq)
    | some r =>
      cases hs : r.schema with
      | none =>
        rw [validPairs_cons_invalid hs]
        exact ih fun q hq => h q (List.mem_cons_of_mem _ hq)
      | some s =>
        have := h (some r, t) (List.mem_cons_self _ _)
        rw [pairValid] at this
        simp [hs] at this

theorem validPairs_length_of_all_valid
    {pairs : List (Option GeminiResponse × ℚ)}
    (h : ∀ p ∈ pairs, pairValid p = true) :
    (validPairs pairs).length = pairs.length := by
  induction pairs with
  | nil => rfl
  | cons p rest ih =>
    obtain ⟨ro, t⟩ := p
    cases ro with
    | none =>
      have := h (none, t) (List.mem_cons_self _ _)
      simp [pairValid] at this
    | some r =>
      cases hs : r.schema with
      | none =>
        have := h (some r, t) (List.mem_cons_self _ _)
        rw [pairValid] at this
        simp [hs] at this
      | some s =>
        rw [validPairs_cons_valid hs, List.length_cons, List.length_cons,
          ih fun q hq => h q (List.mem_cons_of_mem _ hq)]

theorem mem_validPairs {pairs : List (Option GeminiResponse × ℚ)}
    {r : GeminiResponse} {t : ℚ} (h : (r, t) ∈ validPairs pairs) :
    (some r, t) ∈ pairs := by
  obtain ⟨a, ha, hfa⟩ := List.mem_filterMap.mp h
  obtain ⟨ro, t'⟩ := a
  cases ro with
  | none => simp at hfa
  | some r' =>
    by_cases hso : r'.schema.isSome
    · simp only [hso, if_pos] at hfa
      obtain ⟨h1, h2⟩ := Prod.mk.injEq .. ▸ Option.some.inj hfa
      rw [← h1, ← h2]
      exact ha
    · simp [hso] at hfa

theorem firstOccAux_eq_nil {α : Type} [DecidableEq α] :
    ∀ (l : List α) (seen : List α), (∀ x ∈ l, x ∈ seen) →
      firstOccAux seen l = [] := by
  intro l
  induction l with
  | nil => intro seen _; rfl
  | cons a l ih =>
    intro seen h
    rw [firstOccAux_cons, if_pos (h a (List.mem_cons_self _ _))]
    exact ih seen fun x hx => h x (List.mem_cons_of_mem _ hx)

/-- **C3** (confirmed).  The robustness score is the stated function of
`maxCount` (the first group's count after sorting, or 0 without groups):
5 ↦ 100, 4 ↦ 75, 3 ↦ 50, 2 ↦ 25, at most 1 ↦ 0; with no groups (in
particular when every pair is invalid) the score is 0; and when the pairs
are 5 valid responses with one common key there is exactly one group, of
count 5, and the score is 100. -/
theorem claim3_score (pairs : List (Option GeminiResponse × ℚ)) :
    (robustnessMaxCount pairs = 5 → robustnessScore pairs = 100) ∧
    (robustnessMaxCount pairs = 4 → robustnessScore pairs = 75) ∧
    (robustnessMaxCount pairs = 3 → robustnessScore pairs = 50) ∧
    (robustnessMaxCount pairs = 2 → robustnessScore pairs = 25) ∧
    (robustnessMaxCount pairs ≤ 1 → robustnessScore pairs = 0) ∧
    (robustnessGroups pairs = [] → robustnessScore pairs = 0) ∧
    ((∀ p ∈ pairs, pairValid p = false) →
      robustnessGroups pairs = [] ∧ robustnessScore pairs = 0) ∧
    (pairs.length = 5 → (∀ p ∈ pairs, pairValid p = true) →
      (∀ p ∈ pairs, ∀ q ∈ pairs, pairKey p = pairKey q) →
      (robustnessGroups pairs).map (fun g => g.count) = [5] ∧
        robustnessScore pairs = 100) := by
  have hempty : robustnessGroups pairs = [] → robustnessScore pairs = 0 := by
    intro hg
    rw [robustnessScore, robustnessMaxCount, hg]
    rfl
  refine ⟨?_, ?_, ?_, ?_, ?_, hempty, ?_, ?_⟩
  · intro h; rw [robustnessScore, h]; rfl
  · intro h; rw [robustnessScore, h]; rfl
  · intro h; rw [robustnessScore, h]; rfl
  · intro h; rw [robustnessScore, h]; rfl
  · intro h
    rw [robustnessScore]
    have h5 : robustnessMaxCount pairs ≠ 5 := by omega
    have h4 : robustnessMaxCount pairs ≠ 4 := by omega
    have h3 : robustnessMaxCount pairs ≠ 3 := by omega
    have h2 : robustnessMaxCount pairs ≠ 2 := by omega
    simp only [if_neg h5, if_neg h4, if_neg h3, if_neg h2]
  · intro h
    have hg : robustnessGroups pairs = [] := by
      rw [robustnessGroups, groupPairs_spec, validPairs_eq_nil h]
      rfl
    exact ⟨hg, hempty hg⟩
  · intro h5 hv hk
    set VP := validPairs pairs with hVP
    have hlen : VP.length = 5 := by rw [hVP, validPairs_length_of_all_valid hv, h5]
    have hkeys : ∀ x ∈ VP, ∀ y ∈ VP, responseKey x.1 = responseKey y.1 := by
      intro x hx y hy
      obtain ⟨rx, tx⟩ := x
      obtain ⟨ry, ty⟩ := y
      exact hk (some rx, tx) (mem_validPairs hx) (some ry, ty) (mem_validPairs hy)
    obtain ⟨p0, VPt, hVPcons⟩ : ∃ p0 VPt, VP = p0 :: VPt := by
      cases hV : VP with
      | nil => rw [hV] at hlen; simp at hlen
      | cons p0 t => exact ⟨p0, t, rfl⟩
    have hp0 : p0 ∈ VP := by rw [hVPcons]; exact List.mem_cons_self _ _
    have hallk : ∀ q ∈ VP, responseKey q.1 = responseKey p0.1 :=
      fun q hq => hkeys q hq p0 hp0
    have hfo : firstOcc (VP.map fun p => responseKey p.1) =
        [responseKey p0.1] := by
      rw [hVPcons, List.map_cons, firstOcc, firstOccAux_cons,
        if_neg (List.not_mem_nil _), firstOccAux_eq_nil _ _ ?_]
      intro x hx
      obtain ⟨q, hq, rfl⟩ := List.mem_map.mp hx
      rw [hallk q (by rw [hVPcons]; exact List.mem_cons_of_mem _ hq)]
      exact List.mem_cons_self _ _
    have htemps : tempsFor VP (responseKey p0.1) = VP.map Prod.snd := by
      rw [tempsFor, List.filter_eq_self.mpr]
      intro p hp
      simp [hallk p hp]
    have hsg : specGroups VP =
        [(responseKey p0.1,
          ⟨(firstRespFor VP (responseKey p0.1)).getD ⟨none, ""⟩,
           VP.map Prod.snd⟩)] := by
      rw [specGroups, hfo, List.map_cons, List.map_nil, htemps]
    have hgroups : robustnessGroups pairs =
        [⟨((firstRespFor VP (responseKey p0.1)).getD ⟨none, ""⟩ :
            GeminiResponse),
          VP.map Prod.snd, (VP.map Prod.snd).length⟩] := by
      rw [robustnessGroups, groupPairs_spec, ← hVP, hsg]
      rfl
    have hcount : (VP.map Prod.snd).length = 5 := by
      rw [List.length_map, hlen]
    constructor
    · rw [hgroups, List.map_cons, List.map_nil, hcount]
    · rw [robustnessScore, robustnessMaxCount, hgroups]
      simp only [hcount]
      rfl

/-- Witness for C3: one valid response repeated five times yields one group
of count 5 and score 100; five invalid pairs yield no groups and score 0. -/
theorem claim3_score_witness :
    ((robustnessGroups (List.replicate 5 ((some ⟨some ⟨some []⟩, "j"⟩ :
        Option GeminiResponse), (1 : ℚ)))).map (fun g => g.count) = [5] ∧
      robustnessScore (List.replicate 5 ((some ⟨some ⟨some []⟩, "j"⟩ :
        Option GeminiResponse), (1 : ℚ))) = 100) ∧
    (robustnessGroups (List.replicate 5 ((none : Option GeminiResponse),
        (1 : ℚ))) = [] ∧
      robustnessScore (List.replicate 5 ((none : Option GeminiResponse),
        (1 : ℚ))) = 0) :=
  ⟨(claim3_score _).2.2.2.2.2.2.2 (by decide) (by decide) (by decide),
   (claim3_score _).2.2.2.2.2.2.1 (by decide)⟩

/-! ## Claim C5 — settlement of the `Promise.all` join -/

theorem foldl_max_init : ∀ (l : List ℕ) (a : ℕ), a ≤ l.foldl max a := by
  intro l
  induction l with
  | nil => intro a; exact le_refl a
  | cons x l ih =>
    intro a
    exact le_trans (le_max_left a x) (ih (max a x))

theorem mem_le_foldl_max :
    ∀ (l : List ℕ) (a x : ℕ), x ∈ l → x ≤ l.foldl max a := by
  intro l
  induction l with
  | nil => intro a x hx; simp at hx
  | cons y l ih =>
    intro a x hx
    rcases List.mem_cons.mp hx with rfl | hx
    · exact le_trans (le_max_right a x) (foldl_max_init l (max a x))
    · exact ih (max a y) x hx

theorem foldl_min_init : ∀ (l : List ℕ) (a : ℕ), l.foldl min a ≤ a := by
  intro l
  induction l with
  | nil => intro a; exact le_refl a
  | cons x l ih =>
    intro a
    exact le_trans (ih (min a x)) (min_le_left a x)

theorem foldl_min_le_mem :
    ∀ (l : List ℕ) (a x : ℕ), x ∈ l → l.foldl min a ≤ x := by
  intro l
  induction l with
  | nil => intro a x hx; simp at hx
  | cons y l ih =>
    intro a x hx
    rcases List.mem_cons.mp hx with rfl | hx
    · exact le_trans (foldl_min_init l (min a x)) (min_le_right a x)
    · exact ih (min a y) x hx

/-- A settlement schedule on which the claim fails: four calls settle at
time 1, one call rejects at time 0. -/
def failFastCalls : List SettledCall :=
  [⟨1, .ok ⟨none, ""⟩⟩, ⟨1, .ok ⟨none, ""⟩⟩, ⟨1, .ok ⟨none, ""⟩⟩,
   ⟨1, .ok ⟨none, ""⟩⟩, ⟨0, .error "network"⟩]

/-- **C5** (counterexample to the claim as stated).  With five calls of
which one rejects at time 0 while the other four are still pending until
time 1, `Promise.all` settles — and the test reaches its Failed outcome —
at time 0, before every call has settled.  The claim that the outcome
occurs only after all five calls settle is false on this schedule. -/
theorem claim5_counterexample :
    failFastCalls.length = 5 ∧
    promiseAllOutcome failFastCalls = .error "network" ∧
    promiseAllSettleTime failFastCalls = 0 ∧
    ¬ (∀ c ∈ failFastCalls, c.time ≤ promiseAllSettleTime failFastCalls) := by
  decide

/-- **C5** (amended).  The Succeeded outcome occurs only after every call
has settled: with no rejection, the join settles no earlier than each
call.  The Failed outcome is fail-fast: with any rejection, the join
settles no later than each rejecting call — in particular at the first
rejection, while fulfilling calls may still be pending. -/
theorem claim5_amended (cs : List SettledCall) :
    ((∀ c ∈ cs, isRejected c = false) →
      ∀ c ∈ cs, c.time ≤ promiseAllSettleTime cs) ∧
    (∀ r ∈ cs, isRejected r = true → promiseAllSettleTime cs ≤ r.time) := by
  constructor
  · intro hok c hc
    have hfil : cs.filter isRejected = [] := by
      rw [List.filter_eq_nil_iff]
      intro a ha
      rw [hok a ha]
      exact Bool.false_ne_true
    rw [promiseAllSettleTime, hfil]
    exact mem_le_foldl_max _ 0 c.time (List.mem_map_of_mem _ hc)
  · intro r hr hrej
    have hmem : r ∈ cs.filter isRejected := List.mem_filter.mpr ⟨hr, hrej⟩
    rw [promiseAllSettleTime]
    cases hfil : cs.filter isRejected with
    | nil => rw [hfil] at hmem; simp at hmem
    | cons r0 rs =>
      rw [hfil] at hmem
      rcases List.mem_cons.mp hmem with rfl | hmem
      · exact foldl_min_init _ _
      · exact foldl_min_le_mem _ _ r.time (List.mem_map_of_mem _ hmem)

/-- Witness for the amended C5 at concrete schedules: an all-fulfilled
schedule settles after both calls; a schedule with a rejection at time 2
settles no later than 2. -/
theorem claim5_amended_witness :
    (∀ c ∈ [(⟨3, .ok ⟨none, "a"⟩⟩ : SettledCall), ⟨1, .ok ⟨none, "b"⟩⟩],
      c.time ≤ promiseAllSettleTime
        [(⟨3, .ok ⟨none, "a"⟩⟩ : SettledCall), ⟨1, .ok ⟨none, "b"⟩⟩]) ∧
    promiseAllSettleTime
      [(⟨5, .ok ⟨none, "a"⟩⟩ : SettledCall), ⟨2, .error "x"⟩,
       ⟨7, .error "y"⟩] ≤ 2 :=
  ⟨(claim5_amended _).1 (by decide),
   (claim5_amended _).2 ⟨2, .error "x"⟩ (by decide) (by decide)⟩

/-! ## Claims C1 and C4 — the equivalence induced by the encoding

The claims quantify over arbitrary schemas.  Both fail as stated, for the
same underlying reason: the sort inside `normalizeSchema` compares *names
only*, and `Array.prototype.sort` is stable, so two fields (or collections)
with the same trimmed name keep their input order — input order that a
"set of `(name, type)` pairs" or a permutation does not constrain.  Both
claims hold once collection names, and field names within each collection,
are pairwise distinct (after trimming) — exactly the uniqueness the data
model expects of generated schemas. -/

/-- The set of trimmed collection names of a schema. -/
def collNames (s : Schema) : Finset String :=
  ((s.collections.getD []).map fun c => safeString c.name).toFinset

/-- The set of trimmed `(name, type)` pairs of a collection's fields. -/
def fieldPairs (c : Collection) : Finset (String × String) :=
  ((c.fields.getD []).map fun f => (safeString f.name, safeString f.type)).toFinset

/-- The equivalence the claim describes: same set of collection names and,
for each pair of collections matching by trimmed name, the same set of
trimmed field `(name, type)` pairs. -/
def sameStructure (s1 s2 : Schema) : Prop :=
  collNames s1 = collNames s2 ∧
  ∀ c1 ∈ s1.collections.getD [], ∀ c2 ∈ s2.collections.getD [],
    safeString c1.name = safeString c2.name → fieldPairs c1 = fieldPairs c2

/-- The trimmed field names of a collection are pairwise distinct. -/
def nodupFieldNames (c : Collection) : Prop :=
  ((c.fields.getD []).map fun f => safeString f.name).Nodup

/-- The trimmed collection names are pairwise distinct and every
collection has pairwise distinct trimmed field names. -/
def nodupNames (s : Schema) : Prop :=
  ((s.collections.getD []).map fun c => safeString c.name).Nodup ∧
  ∀ c ∈ s.collections.getD [], nodupFieldNames c

instance (c : Collection) : Decidable (nodupFieldNames c) :=
  inferInstanceAs (Decidable (List.Nodup _))

instance (s : Schema) : Decidable (nodupNames s) :=
  inferInstanceAs (Decidable (And _ _))

instance (s1 s2 : Schema) : Decidable (sameStructure s1 s2) :=
  inferInstanceAs (Decidable (And _ _))

/-- A schema with one collection `c` holding the single field `(a, X)`. -/
def dupPairSchemaA : Schema :=
  ⟨some [⟨some "c", none, some [⟨some "a", some "X", none, []⟩], []⟩]⟩

/-- The same schema except the field `(a, X)` appears twice. -/
def dupPairSchemaB : Schema :=
  ⟨some [⟨some "c", none,
    some [⟨some "a", some "X", none, []⟩, ⟨some "a", some "X", none, []⟩],
    []⟩]⟩

/-- **C1** (counterexample to the claim as stated).  The two schemas have
the same set of collection names and, for the matching collection, the same
set of `(name, type)` pairs — yet their normalized encodings differ, because
the encoding keeps both copies of a duplicated field.  The claimed
equivalence fails in the right-to-left direction. -/
theorem claim1_counterexample :
    sameStructure dupPairSchemaA dupPairSchemaB ∧
    schemaKey dupPairSchemaA ≠ schemaKey dupPairSchemaB := by
  decide

/-- Fields of a collection are permuted (all other parts equal). -/
def CollectionPerm (c1 c2 : Collection) : Prop :=
  c1.name = c2.name ∧ c1.description = c2.description ∧
  c1.relevantRequirements = c2.relevantRequirements ∧
  (c1.fields.getD []).Perm (c2.fields.getD [])

/-- `s2` is obtained from `s1` by permuting the collection sequence and
permuting the field sequence of any of its collections. -/
def SchemaPerm (s1 s2 : Schema) : Prop :=
  ∃ mid : List Collection, (s1.collections.getD []).Perm mid ∧
    List.Forall₂ CollectionPerm mid (s2.collections.getD [])

/-- One collection with two fields that share a name but differ in type. -/
def tieSchemaA : Schema :=
  ⟨some [⟨some "c", none,
    some [⟨some "a", some "X", none, []⟩, ⟨some "a", some "Y", none, []⟩],
    []⟩]⟩

/-- The same collection with the two fields swapped. -/
def tieSchemaB : Schema :=
  ⟨some [⟨some "c", none,
    some [⟨some "a", some "Y", none, []⟩, ⟨some "a", some "X", none, []⟩],
    []⟩]⟩

/-- **C4** (counterexample to the claim as stated).  Swapping two fields
that share the name `a` but have different types changes the normalized
encoding: the sort compares names only and is stable, so the tied fields
keep their (different) input orders. -/
theorem claim4_counterexample :
    SchemaPerm tieSchemaA tieSchemaB ∧
    schemaKey tieSchemaA ≠ schemaKey tieSchemaB := by
  refine ⟨⟨tieSchemaA.collections.getD [], List.Perm.refl _, ?_⟩, by decide⟩
  exact List.Forall₂.cons ⟨rfl, rfl, rfl, by decide⟩ List.Forall₂.nil

theorem normalizeSchema_collections_perm (s : Schema) :
    (normalizeSchema s).collections.Perm
      ((s.collections.getD []).map normalizeCollection) := by
  rw [normalizeSchema]
  exact List.perm_insertionSort collLE _

theorem normalizeCollection_fields_perm (c : Collection) :
    (normalizeCollection c).fields.Perm
      ((c.fields.getD []).map normalizeField) := by
  rw [normalizeCollection]
  exact List.perm_insertionSort fieldLE _

theorem collNames_eq_norm (s : Schema) :
    collNames s =
      ((normalizeSchema s).collections.map fun nc => nc.name).toFinset := by
  rw [collNames]
  refine (List.toFinset_eq_of_perm _ _ ?_).symm
  have h := (normalizeSchema_collections_perm s).map fun nc : NormCollection => nc.name
  rw [List.map_map] at h
  exact h

theorem fieldPairs_eq_norm (c : Collection) :
    fieldPairs c =
      ((normalizeCollection c).fields.map fun nf => (nf.name, nf.type)).toFinset := by
  rw [fieldPairs]
  refine (List.toFinset_eq_of_perm _ _ ?_).symm
  have h := (normalizeCollection_fields_perm c).map
    fun nf : NormField => (nf.name, nf.type)
  rw [List.map_map] at h
  exact h

theorem nodup_norm_collNames {s : Schema} (h : nodupNames s) :
    ((normalizeSchema s).collections.map fun nc => nc.name).Nodup := by
  have hperm := (normalizeSchema_collections_perm s).map
    fun nc : NormCollection => nc.name
  rw [List.map_map] at hperm
  exact hperm.nodup_iff.mpr h.1

theorem nodup_norm_fieldNames {c : Collection} (h : nodupFieldNames c) :
    ((normalizeCollection c).fields.map fun nf => nf.name).Nodup := by
  have hperm := (normalizeCollection_fields_perm c).map
    fun nf : NormField => nf.name
  rw [List.map_map] at hperm
  exact hperm.nodup_iff.mpr h

theorem nodup_keys_of_nodup_names {α : Type} {l : List α} {k : α → String}
    (h : (l.map k).Nodup) : (l.map fun a => (k a).data).Nodup := by
  have h2 := h.map (f := String.data) fun a b hab => String.ext hab
  rw [List.map_map] at h2
  exact h2

/-- The pair projection on normalized fields is injective. -/
theorem normFieldPair_injective :
    Function.Injective fun nf : NormField => (nf.name, nf.type) := by
  intro a b h
  obtain ⟨an, at'⟩ := a
  obtain ⟨bn, bt⟩ := b
  simp only [Prod.mk.injEq] at h
  rw [NormField.mk.injEq]
  exact h

/-- Collections that match by name and by field-pair set normalize
identically, provided their field names are duplicate-free. -/
theorem normalizeCollection_eq_of_pairs {c1 c2 : Collection}
    (hn : safeString c1.name = safeString c2.name)
    (hp : fieldPairs c1 = fieldPairs c2)
    (h1 : nodupFieldNames c1) (h2 : nodupFieldNames c2) :
    normalizeCollection c1 = normalizeCollection c2 := by
  have hmap1 : (c1.fields.getD []).map
      (fun f => (safeString f.name, safeString f.type)) =
      ((c1.fields.getD []).map normalizeField).map
        fun nf => (nf.name, nf.type) := by
    rw [List.map_map]; rfl
  have hmap2 : (c2.fields.getD []).map
      (fun f => (safeString f.name, safeString f.type)) =
      ((c2.fields.getD []).map normalizeField).map
        fun nf => (nf.name, nf.type) := by
    rw [List.map_map]; rfl
  have hmem : ∀ nf : NormField,
      nf ∈ (c1.fields.getD []).map normalizeField ↔
      nf ∈ (c2.fields.getD []).map normalizeField := by
    intro nf
    have e1 := (List.mem_map_of_injective normFieldPair_injective
      (a := nf) (l := (c1.fields.getD []).map normalizeField))
    have e2 := (List.mem_map_of_injective normFieldPair_injective
      (a := nf) (l := (c2.fields.getD []).map normalizeField))
    rw [← e1, ← e2, ← hmap1, ← hmap2, ← List.mem_toFinset, ← List.mem_toFinset,
      ← fieldPairs, ← fieldPairs, hp]
  have hnames1 : ((c1.fields.getD []).map normalizeField).map
      (fun nf => nf.name) = (c1.fields.getD []).map fun f => safeString f.name := by
    rw [List.map_map]; rfl
  have hnames2 : ((c2.fields.getD []).map normalizeField).map
      (fun nf => nf.name) = (c2.fields.getD []).map fun f => safeString f.name := by
    rw [List.map_map]; rfl
  have hnd1 : ((c1.fields.getD []).map normalizeField).Nodup :=
    List.Nodup.of_map _ (show (((c1.fields.getD []).map normalizeField).map
      fun nf => nf.name).Nodup by rw [hnames1]; exact h1)
  have hnd2 : ((c2.fields.getD []).map normalizeField).Nodup :=
    List.Nodup.of_map _ (show (((c2.fields.getD []).map normalizeField).map
      fun nf => nf.name).Nodup by rw [hnames2]; exact h2)
  have hperm : ((c1.fields.getD []).map normalizeField).Perm
      ((c2.fields.getD []).map normalizeField) :=
    List.perm_of_nodup_nodup_toFinset_eq hnd1 hnd2
      (Finset.ext fun nf => by
        rw [List.mem_toFinset, List.mem_toFinset]; exact hmem nf)
  rw [normalizeCollection, normalizeCollection, hn]
  congr 1
  exact insertionSort_eq_of_perm (fun nf : NormField => nf.name.data) fieldLE
    (fun _ _ => Iff.rfl) hperm
    (nodup_keys_of_nodup_names (show (((c1.fields.getD []).map
      normalizeField).map fun nf => nf.name).Nodup by
        rw [hnames1]; exact h1))

theorem normalizeSchema_eq_of_sameStructure {s1 s2 : Schema}
    (h1 : nodupNames s1) (h2 : nodupNames s2) (hs : sameStructure s1 s2) :
    normalizeSchema s1 = normalizeSchema s2 := by
  have hnames1 : ((s1.collections.getD []).map normalizeCollection).map
      (fun nc => nc.name) =
      (s1.collections.getD []).map fun c => safeString c.name := by
    rw [List.map_map]; rfl
  have hnames2 : ((s2.collections.getD []).map normalizeCollection).map
      (fun nc => nc.name) =
      (s2.collections.getD []).map fun c => safeString c.name := by
    rw [List.map_map]; rfl
  have hmem : ∀ nc : NormCollection,
      nc ∈ (s1.collections.getD []).map normalizeCollection ↔
      nc ∈ (s2.collections.getD []).map normalizeCollection := by
    intro nc
    constructor
    · intro hmem1
      obtain ⟨c1, hc1, rfl⟩ := List.mem_map.mp hmem1
      have hname : safeString c1.name ∈ collNames s2 := by
        rw [← hs.1, collNames, List.mem_toFinset]
        exact List.mem_map_of_mem _ hc1
      rw [collNames, List.mem_toFinset] at hname
      obtain ⟨c2, hc2, hc2n⟩ := List.mem_map.mp hname
      have heq : normalizeCollection c1 = normalizeCollection c2 :=
        normalizeCollection_eq_of_pairs hc2n.symm
          (hs.2 c1 hc1 c2 hc2 hc2n.symm) (h1.2 c1 hc1) (h2.2 c2 hc2)
      rw [heq]
      exact List.mem_map_of_mem _ hc2
    · intro hmem2
      obtain ⟨c2, hc2, rfl⟩ := List.mem_map.mp hmem2
      have hname : safeString c2.name ∈ collNames s1 := by
        rw [hs.1, collNames, List.mem_toFinset]
        exact List.mem_map_of_mem _ hc2
      rw [collNames, List.mem_toFinset] at hname
      obtain ⟨c1, hc1, hc1n⟩ := List.mem_map.mp hname
      have heq : normalizeCollection c1 = normalizeCollection c2 :=
        normalizeCollection_eq_of_pairs hc1n
          (hs.2 c1 hc1 c2 hc2 hc1n) (h1.2 c1 hc1) (h2.2 c2 hc2)
      rw [← heq]
      exact List.mem_map_of_mem _ hc1
  have hnd1 : ((s1.collections.getD []).map normalizeCollection).Nodup :=
    List.Nodup.of_map _ (show (((s1.collections.getD []).map
      normalizeCollection).map fun nc => nc.name).Nodup by
        rw [hnames1]; exact h1.1)
  have hnd2 : ((s2.collections.getD []).map normalizeCollection).Nodup :=
    List.Nodup.of_map _ (show (((s2.collections.getD []).map
      normalizeCollection).map fun nc => nc.name).Nodup by
        rw [hnames2]; exact h2.1)
  have hperm := List.perm_of_nodup_nodup_toFinset_eq hnd1 hnd2
    (Finset.ext fun nc => by
      rw [List.mem_toFinset, List.mem_toFinset]; exact hmem nc)
  rw [normalizeSchema, normalizeSchema]
  congr 1
  exact insertionSort_eq_of_perm (fun nc : NormCollection => nc.name.data)
    collLE (fun _ _ => Iff.rfl) hperm
    (nodup_keys_of_nodup_names (show (((s1.collections.getD []).map
      normalizeCollection).map fun nc => nc.name).Nodup by
        rw [hnames1]; exact h1.1))

theorem sameStructure_of_normalizeSchema_eq {s1 s2 : Schema}
    (h1 : nodupNames s1) (hN : normalizeSchema s1 = normalizeSchema s2) :
    sameStructure s1 s2 := by
  constructor
  · rw [collNames_eq_norm, collNames_eq_norm, hN]
  · intro c1 hc1 c2 hc2 hname
    have hm1 : normalizeCollection c1 ∈ (normalizeSchema s1).collections :=
      (normalizeSchema_collections_perm s1).mem_iff.mpr
        (List.mem_map_of_mem _ hc1)
    have hm2 : normalizeCollection c2 ∈ (normalizeSchema s1).collections := by
      rw [hN]
      exact (normalizeSchema_collections_perm s2).mem_iff.mpr
        (List.mem_map_of_mem _ hc2)
    have heq : normalizeCollection c1 = normalizeCollection c2 :=
      List.inj_on_of_nodup_map (nodup_norm_collNames h1) hm1 hm2 hname
    rw [fieldPairs_eq_norm, fieldPairs_eq_norm, heq]

/-- **C1** (amended).  Provided the trimmed collection names of each schema
are pairwise distinct and the trimmed field names within every collection
are pairwise distinct, the serialized normalized encodings of two schemas
are equal iff the schemas have the same set of collection names and, for
each matching collection, the same set of trimmed `(name, type)` pairs.
(Without the distinctness proviso the equivalence fails:
`claim1_counterexample`.) -/
theorem claim1_amended (s1 s2 : Schema) (h1 : nodupNames s1)
    (h2 : nodupNames s2) :
    schemaKey s1 = schemaKey s2 ↔ sameStructure s1 s2 := by
  constructor
  · intro h
    exact sameStructure_of_normalizeSchema_eq h1 (jstringify_inj h)
  · intro h
    exact congrArg jstringify (normalizeSchema_eq_of_sameStructure h1 h2 h)

/-- Witness for the amended C1: two concrete schemas that agree as
name/pair sets (up to order and whitespace) and have equal keys. -/
theorem claim1_amended_witness :
    schemaKey ⟨some [⟨some "b", none, none, []⟩,
        ⟨some "a", none, some [⟨some "x", some "X", none, []⟩], []⟩]⟩ =
      schemaKey ⟨some [⟨some " a ", some "d", some
          [⟨some "x ", some " X", some "d2", ["q"]⟩], ["r"]⟩,
        ⟨some "b", none, some [], []⟩]⟩ ↔
    sameStructure ⟨some [⟨some "b", none, none, []⟩,
        ⟨some "a", none, some [⟨some "x", some "X", none, []⟩], []⟩]⟩
      ⟨some [⟨some " a ", some "d", some
          [⟨some "x ", some " X", some "d2", ["q"]⟩], ["r"]⟩,
        ⟨some "b", none, some [], []⟩]⟩ :=
  claim1_amended _ _ (by decide) (by decide)

theorem normalizeCollection_eq_of_collectionPerm {c1 c2 : Collection}
    (hnd : nodupFieldNames c1) (hp : CollectionPerm c1 c2) :
    normalizeCollection c1 = normalizeCollection c2 := by
  obtain ⟨hn, _, _, hf⟩ := hp
  have hnames1 : ((c1.fields.getD []).map normalizeField).map
      (fun nf => nf.name) = (c1.fields.getD []).map fun f => safeString f.name := by
    rw [List.map_map]; rfl
  rw [normalizeCollection, normalizeCollection, hn]
  congr 1
  exact insertionSort_eq_of_perm (fun nf : NormField => nf.name.data) fieldLE
    (fun _ _ => Iff.rfl) (hf.map normalizeField)
    (nodup_keys_of_nodup_names (show (((c1.fields.getD []).map
      normalizeField).map fun nf => nf.name).Nodup by
        rw [hnames1]; exact hnd))

theorem map_normColl_eq_of_forall₂ :
    ∀ {mid l2 : List Collection}, List.Forall₂ CollectionPerm mid l2 →
      (∀ c ∈ mid, nodupFieldNames c) →
      mid.map normalizeCollection = l2.map normalizeCollection := by
  intro mid l2 h
  induction h with
  | nil => intro _; rfl
  | @cons a b mid' l2' hab hrest ih =>
    intro hnd
    rw [List.map_cons, List.map_cons,
      normalizeCollection_eq_of_collectionPerm
        (hnd a (List.mem_cons_self _ _)) hab,
      ih fun c hc => hnd c (List.mem_cons_of_mem _ hc)]

/-- **C4** (amended).  Provided the trimmed collection names of the schema
are pairwise distinct and the trimmed field names within every collection
are pairwise distinct, permuting the collections sequence and/or the field
sequences of any collections leaves the serialized normalized encoding
unchanged.  (Without the proviso the claim fails:
`claim4_counterexample`.) -/
theorem claim4_amended (s1 s2 : Schema) (h1 : nodupNames s1)
    (hp : SchemaPerm s1 s2) : schemaKey s1 = schemaKey s2 := by
  obtain ⟨mid, hperm, hf2⟩ := hp
  apply congrArg jstringify
  have hnames1 : ((s1.collections.getD []).map normalizeCollection).map
      (fun nc => nc.name) =
      (s1.collections.getD []).map fun c => safeString c.name := by
    rw [List.map_map]; rfl
  have hmid : ∀ c ∈ mid, nodupFieldNames c :=
    fun c hc => h1.2 c (hperm.mem_iff.mpr hc)
  have hperm2 : ((s1.collections.getD []).map normalizeCollection).Perm
      ((s2.collections.getD []).map normalizeCollection) := by
    have h := hperm.map normalizeCollection
    rw [map_normColl_eq_of_forall₂ hf2 hmid] at h
    exact h
  rw [normalizeSchema, normalizeSchema]
  congr 1
  exact insertionSort_eq_of_perm (fun nc : NormCollection => nc.name.data)
    collLE (fun _ _ => Iff.rfl) hperm2
    (nodup_keys_of_nodup_names (show (((s1.collections.getD []).map
      normalizeCollection).map fun nc => nc.name).Nodup by
        rw [hnames1]; exact h1.1))

/-- Witness for the amended C4: swapping two distinct-name fields and the
two collections leaves the key unchanged. -/
theorem claim4_amended_witness :
    schemaKey ⟨some [⟨some "d", none, none, []⟩,
        ⟨some "c", none, some [⟨some "a", some "X", none, []⟩,
          ⟨some "b", some "Y", none, []⟩], []⟩]⟩ =
      schemaKey ⟨some [⟨some "c", none, some [⟨some "b", some "Y", none, []⟩,
          ⟨some "a", some "X", none, []⟩], []⟩,
        ⟨some "d", none, none, []⟩]⟩ :=
  claim4_amended _ _ (by decide)
    ⟨[⟨some "c", none, some [⟨some "a", some "X", none, []⟩,
        ⟨some "b", some "Y", none, []⟩], []⟩, ⟨some "d", none, none, []⟩],
     by decide,
     List.Forall₂.cons ⟨rfl, rfl, rfl, by decide⟩
       (List.Forall₂.cons ⟨rfl, rfl, rfl, by decide⟩ List.Forall₂.nil)⟩

/-! ## Claim C2 — full functional correctness of the grouper -/

/-- A pair sequence whose responses are all present, as the grouper's
input. -/
def allValidInput (pairs : List (GeminiResponse × ℚ)) :
    List (Option GeminiResponse × ℚ) :=
  pairs.map fun p => (some p.1, p.2)

theorem validPairs_allValid :
    ∀ (pairs : List (GeminiResponse × ℚ)),
      (∀ p ∈ pairs, p.1.schema.isSome = true) →
      validPairs (allValidInput pairs) = pairs := by
  intro pairs
  induction pairs with
  | nil => intro _; rfl
  | cons p rest ih =>
    intro hv
    obtain ⟨r, t⟩ := p
    obtain ⟨s, hs⟩ := Option.isSome_iff_exists.mp
      (hv (r, t) (List.mem_cons_self _ _))
    rw [allValidInput, List.map_cons]
    rw [validPairs_cons_valid hs]
    rw [show (List.map (fun p : GeminiResponse × ℚ => ((some p.1 : Option GeminiResponse), p.2)) rest) = allValidInput rest from rfl]
    rw [ih fun q hq => hv q (List.mem_cons_of_mem _ hq)]

/-- **C2** (confirmed).  For an all-valid pair sequence the grouper
produces: exactly one map entry per distinct normalized-schema key, in
first-occurrence order; each entry's representative is the first response
processed with that key; each entry's temperature list collects, in
processing order, exactly the temperatures of the pairs with that key;
each formatted group's count is the length of its temperature list; and
the final sequence is a permutation of the insertion-ordered groups,
sorted by count descending, with each count class kept in insertion order
(ties broken by first insertion). -/
theorem claim2_grouping (pairs : List (GeminiResponse × ℚ))
    (hv : ∀ p ∈ pairs, p.1.schema.isSome = true) :
    ((groupPairs (allValidInput pairs)).1.map Prod.fst =
        firstOcc (pairs.map fun p => responseKey p.1) ∧
      ((groupPairs (allValidInput pairs)).1.map Prod.fst).Nodup) ∧
    (∀ kg ∈ (groupPairs (allValidInput pairs)).1,
      (pairs.find? fun p => responseKey p.1 = kg.1).map Prod.fst =
        some kg.2.representative) ∧
    (∀ kg ∈ (groupPairs (allValidInput pairs)).1,
      kg.2.temperatures =
        (pairs.filter fun p => responseKey p.1 = kg.1).map Prod.snd) ∧
    (∀ g ∈ robustnessGroups (allValidInput pairs),
      g.count = g.temperatures.length) ∧
    ((robustnessGroups (allValidInput pairs)).Perm
        ((groupPairs (allValidInput pairs)).1.map
          fun kg => toRobustnessGroup kg.2) ∧
      List.Pairwise groupLE (robustnessGroups (allValidInput pairs)) ∧
      ∀ n : ℕ,
        (robustnessGroups (allValidInput pairs)).filter
            (fun g => decide (g.count = n)) =
          ((groupPairs (allValidInput pairs)).1.map
            fun kg => toRobustnessGroup kg.2).filter
              fun g => decide (g.count = n)) := by
  have hpre : (groupPairs (allValidInput pairs)).1 = specGroups pairs := by
    rw [groupPairs_spec, validPairs_allValid pairs hv]
  have hout : robustnessGroups (allValidInput pairs) =
      List.insertionSort groupLE
        ((groupPairs (allValidInput pairs)).1.map
          fun kg => toRobustnessGroup kg.2) := by
    rw [robustnessGroups, formatGroups]
  refine ⟨⟨?_, ?_⟩, ?_, ?_, ?_, ?_, ?_, ?_⟩
  · rw [hpre, specGroups_keys]
  · rw [hpre, specGroups_keys]
    exact nodup_firstOcc _
  · intro kg hkg
    rw [hpre, specGroups] at hkg
    obtain ⟨key, hkey, rfl⟩ := List.mem_map.mp hkg
    show (pairs.find? fun p => responseKey p.1 = key).map Prod.fst =
      some ((firstRespFor pairs key).getD ⟨none, ""⟩)
    have hmem : key ∈ pairs.map fun p => responseKey p.1 :=
      (mem_firstOcc _ _).mp hkey
    obtain ⟨p, hp, hpk⟩ := List.mem_map.mp hmem
    cases hf : pairs.find? fun q => responseKey q.1 = key with
    | none =>
      rw [List.find?_eq_none] at hf
      exact absurd (by simpa using hpk) (by simpa using hf p hp)
    | some q =>
      rw [firstRespFor, hf]
      rfl
  · intro kg hkg
    rw [hpre, specGroups] at hkg
    obtain ⟨key, hkey, rfl⟩ := List.mem_map.mp hkg
    rfl
  · intro g hg
    rw [hout] at hg
    have hg2 := (List.perm_insertionSort groupLE _).mem_iff.mp hg
    obtain ⟨kg, _, rfl⟩ := List.mem_map.mp hg2
    rfl
  · rw [hout]
    exact List.perm_insertionSort groupLE _
  · rw [hout]
    exact sorted_insertionSort_key groupKey groupLE groupLE_iff _
  · intro n
    rw [hout]
    exact insertionSort_filter_key groupKey groupLE groupLE_iff
      (c := OrderDual.toDual n)
      (fun g => by rw [decide_eq_true_eq]; exact Iff.rfl) _

/-- A three-pair witness input: two responses with the same schema (hence
the same key) at temperatures 1 and 2, and a structurally different schema
at temperature 3. -/
def claim2WitnessPairs : List (GeminiResponse × ℚ) :=
  [(⟨some ⟨some []⟩, "j"⟩, 1), (⟨some ⟨some []⟩, "k"⟩, 2),
   (⟨some ⟨none⟩, "l"⟩, 3)]

/-- Witness for C2 at `claim2WitnessPairs`. -/
theorem claim2_grouping_witness :
    ((groupPairs (allValidInput claim2WitnessPairs)).1.map Prod.fst =
        firstOcc (claim2WitnessPairs.map fun p => responseKey p.1) ∧
      ((groupPairs (allValidInput claim2WitnessPairs)).1.map Prod.fst).Nodup) ∧
    (∀ kg ∈ (groupPairs (allValidInput claim2WitnessPairs)).1,
      (claim2WitnessPairs.find? fun p => responseKey p.1 = kg.1).map Prod.fst =
        some kg.2.representative) ∧
    (∀ kg ∈ (groupPairs (allValidInput claim2WitnessPairs)).1,
      kg.2.temperatures =
        (claim2WitnessPairs.filter fun p => responseKey p.1 = kg.1).map
          Prod.snd) ∧
    (∀ g ∈ robustnessGroups (allValidInput claim2WitnessPairs),
      g.count = g.temperatures.length) ∧
    ((robustnessGroups (allValidInput claim2WitnessPairs)).Perm
        ((groupPairs (allValidInput claim2WitnessPairs)).1.map
          fun kg => toRobustnessGroup kg.2) ∧
      List.Pairwise groupLE (robustnessGroups (allValidInput claim2WitnessPairs)) ∧
      ∀ n : ℕ,
        (robustnessGroups (allValidInput claim2WitnessPairs)).filter
            (fun g => decide (g.count = n)) =
          ((groupPairs (allValidInput claim2WitnessPairs)).1.map
            fun kg => toRobustnessGroup kg.2).filter
              fun g => decide (g.count = n)) :=
  claim2_grouping claim2WitnessPairs (by decide)

/-! ## Claims C9 and C10 — the highlighter -/

theorem scanParts_flatten (uh : List String) :
    ∀ (fuel : Nat) (pending rest : List Char), rest.length ≤ fuel →
      (scanParts uh fuel pending rest).flatten = pending.reverse ++ rest := by
  intro fuel
  induction fuel with
  | zero =>
    intro pending rest h
    match rest, h with
    | [], _ => simp [scanParts]
  | succ n ih =>
    intro pending rest h
    match rest with
    | [] => simp [scanParts]
    | c :: rest =>
      cases hf : uh.find? (fun x => matchesAt x.data (c :: rest)) with
      | none =>
        simp only [scanParts, hf]
        rw [ih _ _ (by simpa using h)]
        simp
      | some hh =>
        simp only [scanParts, hf]
        by_cases he : hh.data = []
        · rw [if_pos he]
          by_cases hp : pending = []
          · rw [if_pos hp, hp]
            rw [ih _ _ (by simpa using h)]
            simp
          · rw [if_neg hp]
            rw [List.flatten_cons, List.flatten_cons,
              ih _ _ (by simpa using h)]
            simp
        · rw [if_neg he]
          rw [List.flatten_cons, List.flatten_cons, ih _ _ ?_]
          · rw [List.reverse_nil, List.nil_append, List.take_append_drop]
          · have hlen : 0 < hh.data.length := List.length_pos.mpr he
            have h2 : rest.length + 1 ≤ n + 1 := by simpa using h
            rw [List.length_drop, List.length_cons]
            omega

theorem flatten_filter_ne_nil {α : Type} [DecidableEq α] (l : List (List α)) :
    (l.filter fun p => decide (p ≠ [])).flatten = l.flatten := by
  induction l with
  | nil => rfl
  | cons a l ih =>
    by_cases ha : a = []
    · subst ha
      rw [List.filter_cons, if_neg (by simp), List.flatten_cons, ih,
        List.nil_append]
    · rw [List.filter_cons, if_pos (by simpa using ha), List.flatten_cons,
        List.flatten_cons, ih]

theorem foldl_append_data :
    ∀ (l : List String) (s : String),
      (l.foldl (fun r t => r ++ t) s).data = s.data ++ (l.map String.data).flatten := by
  intro l
  induction l with
  | nil => intro s; simp
  | cons a l ih =>
    intro s
    rw [List.foldl_cons, ih, List.map_cons, List.flatten_cons,
      String.data_append, List.append_assoc]

theorem join_data (l : List String) :
    (String.join l).data = (l.map String.data).flatten := by
  rw [String.join, foldl_append_data]
  rfl

/-- The segments of the highlighter concatenate to the input text: the
split-and-rejoin never loses, duplicates, or reorders a character. -/
theorem highlighterSegs_join (text : String) (highlights : List String) :
    String.join ((highlighterSegs text highlights).map segString) = text := by
  rw [highlighterSegs]
  by_cases hE : highlights.isEmpty
  · rw [if_pos hE]
    apply String.ext
    rw [join_data]
    simp [segString]
  · rw [if_neg hE]
    apply String.ext
    rw [join_data, List.map_map, List.map_map]
    have hid : ∀ p ∈ (scanParts (uniqueSorted highlights) text.data.length []
        text.data).filter (fun p => p ≠ []),
        ((String.data ∘ segString) ∘ fun p =>
          if (uniqueSorted highlights).any
              (fun h => lowerChars h.data == lowerChars p) then
            Seg.mark (String.mk p)
          else Seg.plain (String.mk p)) p = p := by
      intro p _
      simp only [Function.comp_apply]
      by_cases hc : (uniqueSorted highlights).any
          (fun h => lowerChars h.data == lowerChars p) = true
      · rw [if_pos hc]
        rfl
      · rw [if_neg hc]
        rfl
    rw [List.map_congr_left hid, List.map_id', flatten_filter_ne_nil,
      scanParts_flatten _ _ _ _ (le_refl _)]
    rfl

/-- **C10** (confirmed).  For every text and every highlight list, the
concatenation, in order, of all segments the highlighter produces (marked
and plain together) is exactly the input text. -/
theorem claim10_concatenation (text : String) (highlights : List String) :
    String.join ((highlighterSegs text highlights).map segString) = text :=
  highlighterSegs_join text highlights

theorem sorted_uniqueSorted (hs : List String) :
    List.Pairwise lenDescLE (uniqueSorted hs) :=
  sorted_insertionSort_key (fun s : String => OrderDual.toDual s.length)
    lenDescLE (fun _ _ => Iff.rfl) _

theorem mem_uniqueSorted {hs : List String} {h : String} :
    h ∈ uniqueSorted hs ↔ h ∈ hs := by
  rw [uniqueSorted]
  rw [(List.perm_insertionSort lenDescLE _).mem_iff]
  exact mem_firstOcc _ _

theorem find?_sorted_longest :
    ∀ {l : List String} {p : String → Bool} {h : String},
      List.Pairwise lenDescLE l → l.find? p = some h →
      ∀ x ∈ l, p x = true → x.length ≤ h.length := by
  intro l
  induction l with
  | nil => intro p h _ hf; simp at hf
  | cons a l ih =>
    intro p h hp hf x hx hpx
    cases hpa : p a with
    | true =>
      rw [List.find?_cons_of_pos _ hpa] at hf
      have ha : a = h := Option.some.inj hf
      rcases List.mem_cons.mp hx with rfl | hx
      · rw [ha]
      · rw [← ha]
        exact (List.pairwise_cons.mp hp).1 x hx
    | false =>
      rw [List.find?_cons_of_neg _ (by simp [hpa])] at hf
      rcases List.mem_cons.mp hx with rfl | hx
      · rw [hpx] at hpa
        exact absurd hpa (by simp)
      · exact ih (List.pairwise_cons.mp hp).2 hf x hx hpx

/-- **C9** (confirmed).  Case-insensitive substring highlighting: the two
highlights of the cited example are marked in either casing of the text;
every marked segment lowercase-equals one of the given highlight phrases;
at every scan position the matched phrase is at least as long as any other
matching phrase (longest-match-first); appending a duplicate highlight
entry changes nothing; and the produced segments cover each character of
the text exactly once (their lengths sum to the text's length). -/
theorem claim9_highlighting :
    (highlighterSegs "Users can create posts." ["posts", "Users"] =
      [Seg.mark "Users", Seg.plain " can create ", Seg.mark "posts",
       Seg.plain "."]) ∧
    (highlighterSegs "users CAN create POSTS." ["posts", "Users"] =
      [Seg.mark "users", Seg.plain " CAN create ", Seg.mark "POSTS",
       Seg.plain "."]) ∧
    (∀ (hs : List String) (rest : List Char) (h : String),
      (uniqueSorted hs).find? (fun x => matchesAt x.data rest) = some h →
      ∀ x ∈ hs, matchesAt x.data rest = true → x.length ≤ h.length) ∧
    (∀ (text : String) (hs : List String) (h : String), h ∈ hs →
      highlighterSegs text (hs ++ [h]) = highlighterSegs text hs) ∧
    (∀ (text : String) (hs : List String) (s : String),
      Seg.mark s ∈ highlighterSegs text hs →
      ∃ h ∈ hs, lowerChars h.data = lowerChars s.data) ∧
    (∀ (text : String) (hs : List String),
      ((highlighterSegs text hs).map fun seg => (segString seg).length).sum =
        text.length) := by
  refine ⟨by decide, by decide, ?_, ?_, ?_, ?_⟩
  · intro hs rest h hf x hx hpx
    exact find?_sorted_longest (sorted_uniqueSorted hs) hf x
      (mem_uniqueSorted.mpr hx) hpx
  · intro text hs h hmem
    have hne : hs ≠ [] := List.ne_nil_of_mem hmem
    have hus : uniqueSorted (hs ++ [h]) = uniqueSorted hs := by
      rw [uniqueSorted, uniqueSorted, firstOcc_append_single, if_pos hmem,
        List.append_nil]
    rw [highlighterSegs, highlighterSegs, hus,
      if_neg (by rw [List.isEmpty_iff]; simp),
      if_neg (by rw [List.isEmpty_iff]; exact hne)]
  · intro text hs s hmem
    rw [highlighterSegs] at hmem
    by_cases hE : hs.isEmpty
    · rw [if_pos hE] at hmem
      simp at hmem
    · rw [if_neg hE] at hmem
      obtain ⟨p, _, hseg⟩ := List.mem_map.mp hmem
      by_cases hc : (uniqueSorted hs).any
          (fun h => lowerChars h.data == lowerChars p) = true
      · rw [if_pos hc] at hseg
        obtain ⟨h, hh, hbeq⟩ := List.any_eq_true.mp hc
        refine ⟨h, mem_uniqueSorted.mp hh, ?_⟩
        rw [← Seg.mark.inj hseg]
        exact beq_iff_eq.mp hbeq
      · rw [if_neg hc] at hseg
        exact absurd hseg (by simp)
  · intro text hs
    have h := congrArg (fun s : String => s.data.length)
      (highlighterSegs_join text hs)
    simp only at h
    rw [join_data, List.length_flatten, List.map_map, List.map_map] at h
    exact h

/-- Witness for C9: the duplicate-entry and longest-match conjuncts at
concrete inputs. -/
theorem claim9_highlighting_witness :
    highlighterSegs "xy" (["x"] ++ ["x"]) = highlighterSegs "xy" ["x"] ∧
    (∀ x ∈ (["ab", "a"] : List String),
      matchesAt x.data ['a', 'b', 'c'] = true → x.length ≤ ("ab").length) :=
  ⟨claim9_highlighting.2.2.2.1 "xy" ["x"] "x" (by decide),
   fun x hx hm => claim9_highlighting.2.2.1 ["ab", "a"] ['a', 'b', 'c'] "ab"
     (by decide) x hx hm⟩

end SchemaBuilder
